import Mathlib

/-!
Verification of the connected-components engines of the P-D-Systems
repository.  The C sources (src/src/algorithms/cc_openmp.c: OpenMP and
pthreads variants; the Cilk variant; src/main.c: the sequential BFS
reference; the benchmark driver) are embedded shallowly: the sparse CSC
matrix becomes a structure of lists, the mutable label array becomes an
explicit `List Nat` threaded through the functions, and the parallel
loops become sequential folds in program order (the sequential embedding
of the engine).  Allocation outcomes (malloc/calloc success) are passed
as explicit booleans where a claim depends on them.
-/

namespace PDS

/-- Compressed-sparse-column binary matrix, from `src/src/core/matrix.h`
(struct CSCBinaryMatrix): row/column counts, column pointers of length
`ncols + 1` and row indices of length `nnz`. -/
structure CSCBinaryMatrix where
  nrows : Nat
  ncols : Nat
  col_ptr : List Nat
  row_idx : List Nat

/-- Read `col_ptr[c]` (reads are total; in-range under `ValidCSC`). -/
def cp (m : CSCBinaryMatrix) (c : Nat) : Nat := m.col_ptr.getD c 0

/-- Read `row_idx[j]`. -/
def ri (m : CSCBinaryMatrix) (j : Nat) : Nat := m.row_idx.getD j 0

/-- The stored row indices of column `c`: `row_idx[j]` for
`j ∈ [col_ptr[c], col_ptr[c+1])`, mirroring the inner `for (j = ...)`
loops of every engine. -/
def colRows (m : CSCBinaryMatrix) (c : Nat) : List Nat :=
  (List.range' (cp m c) (cp m (c + 1) - cp m c)).map (ri m)

/-- All stored entries as `(row, col)` pairs in the order the engines
visit them: columns `0, 1, …, ncols-1`, and inside a column the `j`
loop in order. -/
def allEdges (m : CSCBinaryMatrix) : List (Nat × Nat) :=
  (List.range m.ncols).flatMap (fun c => (colRows m c).map (fun r => (r, c)))

/-- Valid CSC structure: `col_ptr` has length `ncols+1`, starts at 0,
ends at `nnz`, is monotone, and every stored row index is `< nrows`. -/
def ValidCSC (m : CSCBinaryMatrix) : Prop :=
  m.col_ptr.length = m.ncols + 1 ∧
  cp m 0 = 0 ∧
  cp m m.ncols = m.row_idx.length ∧
  (∀ c, c < m.ncols → cp m c ≤ cp m (c + 1)) ∧
  (∀ r ∈ m.row_idx, r < m.nrows)

instance (m : CSCBinaryMatrix) : Decidable (ValidCSC m) := by
  unfold ValidCSC; infer_instance

/-- Symmetric pattern: the matrix is square and every stored `(r, c)`
entry has its mirror `(c, r)` stored as well. -/
def SymmPattern (m : CSCBinaryMatrix) : Prop :=
  m.nrows = m.ncols ∧ ∀ p ∈ allEdges m, (p.2, p.1) ∈ allEdges m

instance (m : CSCBinaryMatrix) : Decidable (SymmPattern m) := by
  unfold SymmPattern; infer_instance

/-- Undirected adjacency: a stored entry in either orientation. -/
def Adj (m : CSCBinaryMatrix) (u v : Nat) : Prop :=
  (u, v) ∈ allEdges m ∨ (v, u) ∈ allEdges m

/-- Graph connectivity: the reflexive-transitive closure of `Adj`. -/
def Connected (m : CSCBinaryMatrix) : Nat → Nat → Prop :=
  Relation.ReflTransGen (Adj m)

/-! ### Computable reachability and the component count -/

/-- The undirected neighbours of `v` read off the stored entry list. -/
def nbrList (m : CSCBinaryMatrix) (v : Nat) : List Nat :=
  (((allEdges m).filter (fun p => p.2 = v)).map (fun p => p.1)) ++
  (((allEdges m).filter (fun p => p.1 = v)).map (fun p => p.2))

/-- One step of neighbourhood closure. -/
def reachStep (m : CSCBinaryMatrix) (S : Finset Nat) : Finset Nat :=
  S ∪ S.biUnion (fun v => (nbrList m v).toFinset)

/-- The vertices reachable from `v`: `nrows` rounds of closure, enough
to stabilise on a graph with `nrows` vertices. -/
def reach (m : CSCBinaryMatrix) (v : Nat) : Finset Nat :=
  (reachStep m)^[m.nrows] {v}

/-- The least vertex id in the connected component of `v` (the minimum
of the reachable set, which always contains `v`). -/
def compMin (m : CSCBinaryMatrix) (v : Nat) : Nat :=
  (reach m v).fold min v id

/-- The number of connected components of the graph on vertices
`[0, nrows)`: each component is counted once, at its least vertex. -/
def componentCount (m : CSCBinaryMatrix) : Nat :=
  ((Finset.range m.nrows).filter (fun v => compMin m v = v)).card

/-! ### The label array -/

/-- Read `label[i]` (total; in range during the engines' runs). -/
def lget (lab : List Nat) (i : Nat) : Nat := lab.getD i 0

/-- Write `label[i] = v` (no-op out of range, as the C stores are only
issued in range). -/
def lset (lab : List Nat) (i v : Nat) : List Nat := lab.set i v

/-- `label[v] ≤ v` for every in-range slot — the canonical-ordering
invariant both engines maintain. -/
def LabelInv (lab : List Nat) : Prop :=
  ∀ v, v < lab.length → lget lab v ≤ v

instance (lab : List Nat) : Decidable (LabelInv lab) := by
  unfold LabelInv; infer_instance

/-- Every in-range label slot holds a vertex connected to its index —
the invariant that makes a label (or a union-find parent) meaningful. -/
def ConnInv (m : CSCBinaryMatrix) (lab : List Nat) : Prop :=
  ∀ v, v < lab.length → Connected m v (lget lab v)

/-! ### Disjoint-set primitives (`find_compress`, `union_rem`),
from `src/src/algorithms/cc_openmp.c` lines 19–56 (the pthreads and
Cilk copies are textually identical). -/

/-- The first loop of `find_compress`: `while (label[root] != root)
root = label[root];`, with fuel standing for the (finite) number of
steps the C loop takes. -/
def findRoot (lab : List Nat) : Nat → Nat → Nat
  | 0, root => root
  | fuel + 1, root => if lget lab root = root then root else findRoot lab fuel (lget lab root)

/-- The second loop of `find_compress`:
`while (x != root) { next = label[x]; if (label[x] == next) break;
label[x] = root; x = next; }`. -/
def compressLoop : Nat → List Nat → Nat → Nat → List Nat
  | 0, lab, _, _ => lab
  | fuel + 1, lab, x, root =>
      if x = root then lab
      else
        let next := lget lab x
        if lget lab x = next then lab
        else compressLoop fuel (lset lab x root) next root

/-- The root reached from `x` by following parent pointers (the value
the first loop of `find_compress` computes).  Fuel `x+1` covers the
parent chain, which descends strictly while `LabelInv` holds. -/
def rootOf (lab : List Nat) (x : Nat) : Nat := findRoot lab (x + 1) x

/-- `find_compress(label, x)`: returns the observed root and the label
array after the compression loop. -/
def find_compress (lab : List Nat) (x : Nat) : Nat × List Nat :=
  (rootOf lab x, compressLoop (x + 1) lab x (rootOf lab x))

/-- The retry loop of `union_rem` (`MAX_RETRIES = 10`); the `0` case is
the post-retry fallback with its unconditional release store.  The CAS
`__atomic_compare_exchange_n(&label[b], &expected, a, …)` with
`expected = b` succeeds exactly when `label[b] == b`; on failure the
code retries with `b = expected`, the observed value. -/
def unionRemGo : Nat → List Nat → Nat → Nat → List Nat
  | 0, lab, a, b =>
      let fa := find_compress lab a
      let fb := find_compress fa.2 b
      if fa.1 = fb.1 then fb.2
      else lset fb.2 (max fa.1 fb.1) (min fa.1 fb.1)
  | r + 1, lab, a, b =>
      let fa := find_compress lab a
      let fb := find_compress fa.2 b
      if fa.1 = fb.1 then fb.2
      else
        let a2 := min fa.1 fb.1
        let b2 := max fa.1 fb.1
        if lget fb.2 b2 = b2 then lset fb.2 b2 a2
        else unionRemGo r fb.2 a2 (lget fb.2 b2)

/-- `union_rem(label, a, b)`. -/
def union_rem (lab : List Nat) (a b : Nat) : List Nat := unionRemGo 10 lab a b

/-! ### Union–find engine (`cc_union_find`, OpenMP copy, lines 60–94) -/

/-- Initialisation `label[i] = i`. -/
def ufInit (n : Nat) : List Nat := List.range n

/-- One step of the union phase: `if (row < n) union_rem(label, row, col)`. -/
def ufStep (n : Nat) (lab : List Nat) (p : Nat × Nat) : List Nat :=
  if p.1 < n then union_rem lab p.1 p.2 else lab

/-- Union phase: for every column `c`, for every stored row `r`,
`if (row < n) union_rem(label, row, col)`. -/
def ufUnionPhase (m : CSCBinaryMatrix) (lab : List Nat) : List Nat :=
  (allEdges m).foldl (ufStep m.nrows) lab

/-- Flatten phase: `find_compress(label, i)` for every `i < n`. -/
def ufFlatten (n : Nat) (lab : List Nat) : List Nat :=
  (List.range n).foldl (fun l i => (find_compress l i).2) lab

/-- The label array of the union-find engine after union and flatten. -/
def uf_labels (m : CSCBinaryMatrix) : List Nat :=
  ufFlatten m.nrows (ufUnionPhase m (ufInit m.nrows))

/-- Count phase: the number of `i < n` with `label[i] == i`. -/
def ufCount (n : Nat) (lab : List Nat) : Nat :=
  ((List.range n).filter (fun i => lget lab i = i)).length

/-- `cc_union_find(matrix, n_threads)` (OpenMP and Cilk copies; for the
pthreads union phase, which lacks the row filter, see
`uf_pthreads_unioned`).  `labelOk` is the outcome of the
`malloc` for `label`. -/
def cc_union_find (m : CSCBinaryMatrix) (labelOk : Bool) : Int :=
  if m.nrows = 0 then 0
  else if !labelOk then -1
  else (ufCount m.nrows (uf_labels m) : Int)

/-- The `(a, b)` argument pairs on which the pthreads union phase
(`uf_worker`, cc_pthreads lines 354–363) invokes `union_rem`: every
stored `(row, c)`, with no `row < nrows` filter. -/
def uf_pthreads_unioned (m : CSCBinaryMatrix) : List (Nat × Nat) :=
  allEdges m

/-- The `(a, b)` argument pairs on which the OpenMP / Cilk union phases
invoke `union_rem`: stored `(row, c)` entries with `row < nrows`. -/
def uf_omp_unioned (m : CSCBinaryMatrix) : List (Nat × Nat) :=
  (allEdges m).filter (fun p => p.1 < m.nrows)

/-! ### Label-propagation engine (`cc_label_propagation`, OpenMP copy,
lines 109–192; the pthreads `lp_worker` and the Cilk copy perform the
same update) -/

/-- One edge update of the OpenMP propagation loop: read
`lc = label[col]`, `lr = label[row]`; if they differ write
`minval = min(lc, lr)` into whichever endpoint holds the larger value
(`label[col]` when `lc != minval`, else `label[row]`), and report a
change.  The locals `lc`, `lr`, `minval` of the C body are written out
as the reads they stand for. -/
def lp_edge (lab : List Nat) (c r : Nat) : List Nat × Bool :=
  if lget lab c ≠ lget lab r then
    if lget lab c ≠ min (lget lab c) (lget lab r) then
      (lset lab c (min (lget lab c) (lget lab r)), true)
    else
      (lset lab r (min (lget lab c) (lget lab r)), true)
  else (lab, false)

/-- One edge update of the pthreads `lp_worker` (lines 521–541): two
conditional stores, `if (lc > m) label[c] = m` then
`if (lr > m) label[r] = m`, with `lc` and `lr` both read before either
store. -/
def lp_edge_pth (lab : List Nat) (c r : Nat) : List Nat × Bool :=
  if lget lab c ≠ lget lab r then
    if lget lab c > min (lget lab c) (lget lab r) then
      (lset lab c (min (lget lab c) (lget lab r)), true)
    else if lget lab r > min (lget lab c) (lget lab r) then
      (lset lab r (min (lget lab c) (lget lab r)), true)
    else (lab, false)
  else (lab, false)

/-- Folding the edge update over an edge list (each list element is a
stored `(row, col)` pair); this is the shape of every intermediate
state of the propagation loop. -/
def lpFoldEdges (es : List (Nat × Nat)) (lab : List Nat) : List Nat :=
  es.foldl (fun l p => (lp_edge l p.2 p.1).1) lab

/-- One step of a pass: apply the edge update to the running label
array and OR the `changed` bit into the pass flag. -/
def lpStep (s : List Nat × Bool) (p : Nat × Nat) : List Nat × Bool :=
  ((lp_edge s.1 p.2 p.1).1, s.2 || (lp_edge s.1 p.2 p.1).2)

/-- One full pass of the convergence loop: every stored edge in column
order, accumulating the pass's `changed` flag. -/
def lp_pass (m : CSCBinaryMatrix) (lab : List Nat) : List Nat × Bool :=
  (allEdges m).foldl lpStep (lab, false)

/-- The `do … while (!finished)` convergence loop, with fuel bounding
the number of iterations the C loop actually performs (it terminates
because the label sum strictly decreases whenever a pass changes
anything). -/
def lp_loop : Nat → CSCBinaryMatrix → List Nat → List Nat
  | 0, _, lab => lab
  | fuel + 1, m, lab =>
      let t := lp_pass m lab
      if t.2 then lp_loop fuel m t.1 else t.1

/-- Fuel sufficient for convergence: the initial label sum is below
`nrows * nrows`. -/
def lp_fuel (m : CSCBinaryMatrix) : Nat := m.nrows * m.nrows + 1

/-- The label array when the convergence loop exits. -/
def lp_labels (m : CSCBinaryMatrix) : List Nat :=
  lp_loop (lp_fuel m) m (List.range m.nrows)

/-! ### Bitmap counting (propagation, lines 163–191) -/

/-- Number of 1 bits (`__builtin_popcountll`). -/
def popcount (n : Nat) : Nat :=
  if h : n = 0 then 0 else n % 2 + popcount (n / 2)
decreasing_by exact Nat.div_lt_self (Nat.pos_of_ne_zero h) one_lt_two

/-- `bitmap_size = (nrows + 63) / 64` words. -/
def bsz (n : Nat) : Nat := (n + 63) / 64

/-- One bitmap update: `bitmap[val >> 6] |= 1 << (val & 63)` with
`val = label[i]`. -/
def bmStep (lab : List Nat) (bm : List Nat) (i : Nat) : List Nat :=
  lset bm (lget lab i >>> 6) (lget bm (lget lab i >>> 6) ||| (1 <<< (lget lab i &&& 63)))

/-- Bitmap construction: for each `i < n`,
`bitmap[val >> 6] |= 1 << (val & 63)` with `val = label[i]`. -/
def bitmapBuild (n : Nat) (lab : List Nat) : List Nat :=
  (List.range n).foldl (bmStep lab) (List.replicate (bsz n) 0)

/-- The counting pass: sum of popcounts over the bitmap words. -/
def lpCount (n : Nat) (lab : List Nat) : Nat :=
  (bitmapBuild n lab).foldl (fun acc w => acc + popcount w) 0

/-- `cc_label_propagation(matrix, n_threads)` (OpenMP copy; the pthreads
copy is the same computation).  `labelOk` and `bitmapOk` are the
outcomes of the `malloc` for `label` and the `calloc` for the bitmap;
the function has no `nrows == 0` early return. -/
def cc_label_propagation (m : CSCBinaryMatrix) (labelOk bitmapOk : Bool) : Int :=
  if !labelOk then -1
  else
    let lab := lp_labels m
    if !bitmapOk then -1
    else (lpCount m.nrows lab : Int)

/-- The Cilk `cc_label_propagation` (src/unnamed/part_001 lines
610–681): identical except for the `nrows == 0` early return before
any allocation. -/
def cc_label_propagation_cilk (m : CSCBinaryMatrix) (labelOk bitmapOk : Bool) : Int :=
  if m.nrows = 0 then 0
  else cc_label_propagation m labelOk bitmapOk

/-- The dispatch `cc_openmp(matrix, n_threads, algorithm_variant)`
(lines 196–206), with allocations succeeding. -/
def cc_openmp (m : CSCBinaryMatrix) (nthreads variant : Nat) : Int :=
  match variant with
  | 0 => cc_label_propagation m true true
  | 1 => cc_union_find m true
  | _ => -1

/-! ### Resource ledger versions (allocation-failure paths, claim C8) -/

/-- The heap objects an engine allocates. -/
inductive AllocTok where
  | labelArr : AllocTok
  | bitmapArr : AllocTok
deriving DecidableEq

/-- `cc_label_propagation` with the list of allocations still held at
each return, mirroring the `malloc`/`calloc`/`free` calls line by
line.  The second component is what the engine has not freed when it
returns. -/
def cc_label_propagation_mem (m : CSCBinaryMatrix) (labelOk bitmapOk : Bool) :
    Int × List AllocTok :=
  if !labelOk then (-1, [])
  else
    let held := [AllocTok.labelArr]
    let lab := lp_labels m
    if !bitmapOk then
      (-1, held.erase AllocTok.labelArr)
    else
      let held := AllocTok.bitmapArr :: held
      let cnt := lpCount m.nrows lab
      let held := held.erase AllocTok.bitmapArr
      let held := held.erase AllocTok.labelArr
      ((cnt : Int), held)

/-- `cc_union_find` with its allocation ledger. -/
def cc_union_find_mem (m : CSCBinaryMatrix) (labelOk : Bool) :
    Int × List AllocTok :=
  if m.nrows = 0 then (0, [])
  else if !labelOk then (-1, [])
  else
    let held := [AllocTok.labelArr]
    let cnt := ufCount m.nrows (uf_labels m)
    let held := held.erase AllocTok.labelArr
    ((cnt : Int), held)

/-! ### The sequential BFS reference (`src/main.c`, lines 8–47) -/

/-- One neighbour visit of the BFS inner loop: `if
(labels[neighbor] == UINT32_MAX) { labels[neighbor] = component_id;
queue[rear++] = neighbor; }`.  Labels use `none` for the `UINT32_MAX`
sentinel. -/
def bfsScan (id : Nat) (s : List (Option Nat) × List Nat) (nb : Nat) :
    List (Option Nat) × List Nat :=
  if s.1.getD nb (some 0) = none then (s.1.set nb (some id), s.2 ++ [nb]) else s

/-- The BFS loop of `bfs_component`: pop the queue front, scan the
current column's stored rows, label and enqueue the unlabelled ones.
Fuel `ncols` covers every dequeue (each vertex is enqueued at most
once, matching the queue allocation of `ncols` slots). -/
def bfs_loop (m : CSCBinaryMatrix) (id : Nat) :
    Nat → List (Option Nat) → List Nat → List (Option Nat)
  | 0, labels, _ => labels
  | fuel + 1, labels, queue =>
      match queue with
      | [] => labels
      | cur :: rest =>
          let s := (colRows m cur).foldl (bfsScan id) (labels, rest)
          bfs_loop m id fuel s.1 s.2

/-- `bfs_component(matrix, startVertex, component_id, labels)`. -/
def bfs_component (m : CSCBinaryMatrix) (start id : Nat)
    (labels : List (Option Nat)) : List (Option Nat) :=
  bfs_loop m id m.ncols (labels.set start (some id)) [start]

/-- One outer-loop step of `count_connected_components`: if `v` is
still unlabelled, BFS-label its component with the next id. -/
def cccStep (m : CSCBinaryMatrix) (s : List (Option Nat) × Nat) (v : Nat) :
    List (Option Nat) × Nat :=
  if s.1.getD v (some 0) = none then (bfs_component m v s.2 s.1, s.2 + 1) else s

/-- `count_connected_components(matrix)`: scan vertices `0 … ncols-1`,
BFS-label each still-unlabelled one with a fresh component id, return
the number of ids used. -/
def count_connected_components (m : CSCBinaryMatrix) : Nat :=
  ((List.range m.ncols).foldl (cccStep m)
    (List.replicate m.ncols (none : Option Nat), 0)).2

/-! ### The benchmark driver (`benchmark_cc`, src/unnamed/part_005) -/

/-- The trial loop of `benchmark_cc`: `trials` is the sequence of
values the algorithm function returns.  Mirrors the body: after each
trial, `if (result == -1) return 1;` — testing the value stored from
the *previous* trial — then `result = temp_result` on trial 0, or the
mismatch check (`return 2`) afterwards.  Returns the exit code and the
printed component count (`none` on the early-return paths, which print
nothing). -/
def benchGo : Nat → Int → List Int → Int × Option Int
  | _, result, [] => (0, some result)
  | idx, result, t :: rest =>
      if result = -1 then (1, none)
      else if idx = 0 then benchGo (idx + 1) t rest
      else if t ≠ result then (2, none)
      else benchGo (idx + 1) result rest

/-- `benchmark_cc`, with `timesOk` the outcome of the `malloc` for the
timing array. -/
def benchmark_cc (timesOk : Bool) (trials : List Int) : Int × Option Int :=
  if !timesOk then (1, none)
  else benchGo 0 0 trials

/-- `v` holds a BFS label (its slot is not the `UINT32_MAX` sentinel);
out-of-range reads default to labelled, as the loops never go there. -/
def labeledAt (labels : List (Option Nat)) (v : Nat) : Prop :=
  labels.getD v (some 0) ≠ none

instance (labels : List (Option Nat)) (v : Nat) : Decidable (labeledAt labels v) := by
  unfold labeledAt; infer_instance

/-! ### Concrete inputs used as witnesses and counterexamples -/

/-- Two disjoint edges on 4 vertices (spec §8 scenario 3): symmetric,
valid, 2 components. -/
def mxPairs : CSCBinaryMatrix := ⟨4, 4, [0, 1, 2, 3, 4], [1, 0, 3, 2]⟩

/-- A triangle on 3 vertices (spec §8 scenario 2). -/
def mxTri : CSCBinaryMatrix := ⟨3, 3, [0, 2, 4, 6], [1, 2, 0, 2, 0, 1]⟩

/-- Symmetric valid 5-vertex input with edges {0,3}, {2,4}, {3,4}: the
union phase creates the parent chain 4 → 2 → 0, which the broken
flatten phase fails to shorten. -/
def mxChain : CSCBinaryMatrix := ⟨5, 5, [0, 1, 1, 2, 4, 6], [3, 4, 0, 4, 2, 3]⟩

/-- A 1×2 input whose single stored entry has row index 1 ≥ nrows = 1
(the rectangular case the spec's edge filtering is for). -/
def mxRect : CSCBinaryMatrix := ⟨1, 2, [0, 0, 1], [1]⟩

/-- The degenerate empty input: nrows = ncols = 0. -/
def mxEmpty : CSCBinaryMatrix := ⟨0, 0, [0], []⟩

/-! ## Label-array access lemmas -/

theorem length_lset (l : List Nat) (i v : Nat) : (lset l i v).length = l.length :=
  List.length_set l i v

theorem lget_set_self (l : List Nat) {i : Nat} (v : Nat) (h : i < l.length) :
    lget (lset l i v) i = v := by
  simp [lget, lset, List.getD, List.getElem?_set_self, h]

theorem lget_set_ne (l : List Nat) {i j : Nat} (v : Nat) (h : i ≠ j) :
    lget (lset l i v) j = lget l j := by
  simp [lget, lset, List.getD, List.getElem?_set_ne h]

theorem lset_oob (l : List Nat) {i : Nat} (v : Nat) (h : l.length ≤ i) :
    lset l i v = l :=
  List.set_eq_of_length_le h

theorem lget_oob (l : List Nat) {i : Nat} (h : l.length ≤ i) : lget l i = 0 := by
  simp [lget, List.getD, List.getElem?_eq_none h]

theorem lget_range {n i : Nat} (h : i < n) : lget (List.range n) i = i := by
  simp [lget, List.getD, List.getElem?_range h]

theorem lget_lt_length {l : List Nat} {i : Nat} (h : i < l.length) :
    lget l i ∈ l := by
  have : lget l i = l[i] := by simp [lget, List.getD, List.getElem?_eq_getElem h]
  exact this ▸ List.getElem_mem h

theorem sum_lset (l : List Nat) {i : Nat} (v : Nat) (h : i < l.length) :
    (lset l i v).sum + lget l i = l.sum + v := by
  induction l generalizing i with
  | nil => simp at h
  | cons a t ih =>
      cases i with
      | zero =>
          simp only [lset, lget, List.set_cons_zero, List.getD_cons_zero, List.sum_cons]
          omega
      | succ j =>
          have hj : j < t.length := by simpa using h
          have ihj := ih (i := j) hj
          simp only [lset, lget, List.set_cons_succ, List.getD_cons_succ,
            List.sum_cons] at *
          omega

/-! ## Stored edges and the graph they induce -/

theorem mem_allEdges {m : CSCBinaryMatrix} {r c : Nat} :
    (r, c) ∈ allEdges m ↔ c < m.ncols ∧ r ∈ colRows m c := by
  constructor
  · intro h
    rcases List.mem_flatMap.mp h with ⟨c2, hc2, hmem⟩
    rcases List.mem_map.mp hmem with ⟨r2, hr2, heq⟩
    obtain ⟨rfl, rfl⟩ : r2 = r ∧ c2 = c := by
      constructor <;> [exact congrArg Prod.fst heq; exact congrArg Prod.snd heq]
    exact ⟨List.mem_range.mp hc2, hr2⟩
  · rintro ⟨hc, hr⟩
    exact List.mem_flatMap.mpr ⟨c, List.mem_range.mpr hc, List.mem_map.mpr ⟨r, hr, rfl⟩⟩

theorem cp_mono {m : CSCBinaryMatrix} (hv : ValidCSC m) :
    ∀ {c d : Nat}, c ≤ d → d ≤ m.ncols → cp m c ≤ cp m d := by
  intro c d hcd hd
  induction d with
  | zero => cases Nat.le_zero.mp hcd; exact le_refl _
  | succ e ih =>
      rcases Nat.lt_or_ge c (e + 1) with hlt | hge
      · have h1 : cp m c ≤ cp m e := ih (by omega) (by omega)
        have h2 : cp m e ≤ cp m (e + 1) := hv.2.2.2.1 e (by omega)
        omega
      · have : c = e + 1 := by omega
        subst this; exact le_refl _

theorem colRows_subset_row_idx {m : CSCBinaryMatrix} (hv : ValidCSC m)
    {c r : Nat} (hc : c < m.ncols) (hr : r ∈ colRows m c) : r ∈ m.row_idx := by
  rcases List.mem_map.mp hr with ⟨j, hj, rfl⟩
  rcases List.mem_range'_1.mp hj with ⟨hj1, hj2⟩
  have hstep : cp m c ≤ cp m (c + 1) := hv.2.2.2.1 c hc
  have hcp : cp m (c + 1) ≤ m.row_idx.length := by
    have h1 := cp_mono hv (c := c + 1) (d := m.ncols) hc (le_refl _)
    have h2 := hv.2.2.1
    omega
  have hjlt : j < m.row_idx.length := by omega
  exact lget_lt_length (l := m.row_idx) hjlt

theorem edge_row_lt {m : CSCBinaryMatrix} (hv : ValidCSC m) {r c : Nat}
    (h : (r, c) ∈ allEdges m) : r < m.nrows := by
  rcases mem_allEdges.mp h with ⟨hc, hr⟩
  exact hv.2.2.2.2 r (colRows_subset_row_idx hv hc hr)

theorem edge_col_lt {m : CSCBinaryMatrix} {r c : Nat}
    (h : (r, c) ∈ allEdges m) : c < m.ncols :=
  (mem_allEdges.mp h).1

theorem adj_symm {m : CSCBinaryMatrix} {u v : Nat} (h : Adj m u v) : Adj m v u :=
  h.elim Or.inr Or.inl

theorem connected_refl (m : CSCBinaryMatrix) (v : Nat) : Connected m v v :=
  Relation.ReflTransGen.refl

theorem connected_symm {m : CSCBinaryMatrix} {u v : Nat}
    (h : Connected m u v) : Connected m v u := by
  induction h with
  | refl => exact Relation.ReflTransGen.refl
  | tail _ hadj ih => exact Relation.ReflTransGen.head (adj_symm hadj) ih

theorem connected_trans {m : CSCBinaryMatrix} {u v w : Nat}
    (h1 : Connected m u v) (h2 : Connected m v w) : Connected m u w :=
  Relation.ReflTransGen.trans h1 h2

theorem connected_of_adj {m : CSCBinaryMatrix} {u v : Nat} (h : Adj m u v) :
    Connected m u v :=
  Relation.ReflTransGen.single h

/-! ## Reachability: `reach` computes the connected component -/

theorem mem_nbrList {m : CSCBinaryMatrix} {u v : Nat} :
    u ∈ nbrList m v ↔ Adj m u v := by
  simp only [nbrList, Adj, List.mem_append, List.mem_map, List.mem_filter,
    decide_eq_true_eq]
  constructor
  · rintro (⟨⟨a, b⟩, ⟨hp, rfl⟩, rfl⟩ | ⟨⟨a, b⟩, ⟨hp, rfl⟩, rfl⟩)
    · exact Or.inl hp
    · exact Or.inr hp
  · rintro (h | h)
    · exact Or.inl ⟨(u, v), ⟨h, rfl⟩, rfl⟩
    · exact Or.inr ⟨(v, u), ⟨h, rfl⟩, rfl⟩

theorem subset_reachStep (m : CSCBinaryMatrix) (S : Finset Nat) :
    S ⊆ reachStep m S :=
  Finset.subset_union_left

theorem reachStep_mono {m : CSCBinaryMatrix} {S T : Finset Nat} (h : S ⊆ T) :
    reachStep m S ⊆ reachStep m T := by
  unfold reachStep
  exact Finset.union_subset_union h (Finset.biUnion_subset_biUnion_of_subset_left _ h)

theorem subset_iterate_reachStep (m : CSCBinaryMatrix) (S : Finset Nat) :
    ∀ k, S ⊆ (reachStep m)^[k] S := by
  intro k
  induction k with
  | zero => simp
  | succ j ih =>
      calc S ⊆ (reachStep m)^[j] S := ih
        _ ⊆ reachStep m ((reachStep m)^[j] S) := subset_reachStep m _
        _ = (reachStep m)^[j + 1] S := (Function.iterate_succ_apply' _ _ _).symm

theorem mem_self_reach (m : CSCBinaryMatrix) (v : Nat) : v ∈ reach m v :=
  subset_iterate_reachStep m {v} m.nrows (Finset.mem_singleton_self v)

theorem reach_sound {m : CSCBinaryMatrix} {v u : Nat} (h : u ∈ reach m v) :
    Connected m v u := by
  suffices hiter : ∀ k w, w ∈ (reachStep m)^[k] ({v} : Finset Nat) → Connected m v w from
    hiter m.nrows u h
  intro k
  induction k with
  | zero =>
      intro w hw
      have hwv : w = v := by simpa using hw
      subst hwv
      exact connected_refl m w
  | succ j ih =>
      intro w hw
      rw [Function.iterate_succ_apply'] at hw
      rcases Finset.mem_union.mp hw with hw | hw
      · exact ih w hw
      · rcases Finset.mem_biUnion.mp hw with ⟨x, hx, hwx⟩
        have hadj : Adj m w x := mem_nbrList.mp (List.mem_toFinset.mp hwx)
        exact Relation.ReflTransGen.tail (ih x hx) (adj_symm hadj)

theorem iterate_fixed_of_fixed {m : CSCBinaryMatrix} {S : Finset Nat}
    (h : reachStep m S = S) : ∀ k, (reachStep m)^[k] S = S := by
  intro k
  induction k with
  | zero => rfl
  | succ j ih => rw [Function.iterate_succ_apply', ih, h]

theorem iterate_card_ge {m : CSCBinaryMatrix} {v : Nat} :
    ∀ k, (∀ j, j < k →
        reachStep m ((reachStep m)^[j] ({v} : Finset Nat)) ≠ (reachStep m)^[j] ({v} : Finset Nat)) →
      k + 1 ≤ ((reachStep m)^[k] ({v} : Finset Nat)).card := by
  intro k
  induction k with
  | zero => intro _; simp
  | succ j ih =>
      intro h
      have h1 : j + 1 ≤ ((reachStep m)^[j] ({v} : Finset Nat)).card :=
        ih (fun i hi => h i (by omega))
      have hne := h j (by omega)
      have hsub : (reachStep m)^[j] ({v} : Finset Nat) ⊂
          reachStep m ((reachStep m)^[j] ({v} : Finset Nat)) :=
        (subset_reachStep m _).ssubset_of_ne (Ne.symm hne)
      have h2 : ((reachStep m)^[j] ({v} : Finset Nat)).card <
          (reachStep m ((reachStep m)^[j] ({v} : Finset Nat))).card :=
        Finset.card_lt_card hsub
      rw [Function.iterate_succ_apply']
      omega

theorem nbrList_range {m : CSCBinaryMatrix} (hv : ValidCSC m)
    (hsq : m.ncols ≤ m.nrows) {u w : Nat} (h : u ∈ nbrList m w) : u < m.nrows := by
  rcases mem_nbrList.mp h with h1 | h1
  · exact edge_row_lt hv h1
  · have := edge_col_lt h1
    omega

theorem iterate_subset_range {m : CSCBinaryMatrix} (hv : ValidCSC m)
    (hsq : m.ncols ≤ m.nrows) {v : Nat} (hvn : v < m.nrows) :
    ∀ k, (reachStep m)^[k] ({v} : Finset Nat) ⊆ Finset.range m.nrows := by
  intro k
  induction k with
  | zero => simpa using Finset.singleton_subset_iff.mpr (Finset.mem_range.mpr hvn)
  | succ j ih =>
      rw [Function.iterate_succ_apply']
      intro x hx
      rcases Finset.mem_union.mp hx with hx | hx
      · exact ih hx
      · rcases Finset.mem_biUnion.mp hx with ⟨w, _, hxw⟩
        exact Finset.mem_range.mpr (nbrList_range hv hsq (List.mem_toFinset.mp hxw))

theorem reach_fixed {m : CSCBinaryMatrix} (hv : ValidCSC m)
    (hsq : m.ncols ≤ m.nrows) {v : Nat} (hvn : v < m.nrows) :
    reachStep m (reach m v) = reach m v := by
  by_cases hstab : ∃ j, j < m.nrows ∧
      reachStep m ((reachStep m)^[j] ({v} : Finset Nat)) = (reachStep m)^[j] ({v} : Finset Nat)
  · rcases hstab with ⟨j, hj, hfix⟩
    have hrest : ∀ i, (reachStep m)^[j + i] ({v} : Finset Nat) =
        (reachStep m)^[j] ({v} : Finset Nat) := by
      intro i
      rw [Nat.add_comm, Function.iterate_add_apply]
      exact iterate_fixed_of_fixed hfix i
    have hre : reach m v = (reachStep m)^[j] ({v} : Finset Nat) := by
      have := hrest (m.nrows - j)
      rw [show j + (m.nrows - j) = m.nrows by omega] at this
      exact this
    rw [hre, hfix]
  · push_neg at hstab
    have hcard := iterate_card_ge (m := m) (v := v) m.nrows
      (fun j hj => hstab j hj)
    have hsub := iterate_subset_range hv hsq hvn m.nrows
    have := Finset.card_le_card hsub
    simp [Finset.card_range] at this
    omega

theorem reach_closed {m : CSCBinaryMatrix} (hv : ValidCSC m)
    (hsq : m.ncols ≤ m.nrows) {v u w : Nat} (hvn : v < m.nrows)
    (hu : u ∈ reach m v) (hadj : Adj m w u) : w ∈ reach m v := by
  have : w ∈ reachStep m (reach m v) := by
    refine Finset.mem_union_right _ (Finset.mem_biUnion.mpr ⟨u, hu, ?_⟩)
    exact List.mem_toFinset.mpr (mem_nbrList.mpr hadj)
  rwa [reach_fixed hv hsq hvn] at this

theorem reach_complete {m : CSCBinaryMatrix} (hv : ValidCSC m)
    (hsq : m.ncols ≤ m.nrows) {v u : Nat} (hvn : v < m.nrows)
    (h : Connected m v u) : u ∈ reach m v := by
  induction h with
  | refl => exact mem_self_reach m v
  | tail _ hadj ih => exact reach_closed hv hsq hvn ih (adj_symm hadj)

theorem mem_reach_iff {m : CSCBinaryMatrix} (hv : ValidCSC m)
    (hsq : m.ncols ≤ m.nrows) {v u : Nat} (hvn : v < m.nrows) :
    u ∈ reach m v ↔ Connected m v u :=
  ⟨reach_sound, reach_complete hv hsq hvn⟩

theorem reach_congr {m : CSCBinaryMatrix} (hv : ValidCSC m)
    (hsq : m.ncols ≤ m.nrows) {u v : Nat} (hun : u < m.nrows) (hvn : v < m.nrows)
    (h : Connected m u v) : reach m u = reach m v := by
  ext w
  rw [mem_reach_iff hv hsq hun, mem_reach_iff hv hsq hvn]
  exact ⟨fun hw => connected_trans (connected_symm h) hw,
    fun hw => connected_trans h hw⟩

/-! ## The component minimum -/

theorem fold_min_mem (s : Finset Nat) (b : Nat) :
    s.fold min b id = b ∨ s.fold min b id ∈ s := by
  induction s using Finset.induction_on with
  | empty => simp
  | insert hnotmem ih =>
      rename_i a s
      rw [Finset.fold_insert hnotmem]
      rcases min_choice (id a) (s.fold min b id) with he | he
      · rw [he]
        exact Or.inr (Finset.mem_insert_self a s)
      · rw [he]
        rcases ih with h | h
        · exact Or.inl h
        · exact Or.inr (Finset.mem_insert_of_mem h)

theorem fold_min_le_base (s : Finset Nat) (b : Nat) : s.fold min b id ≤ b := by
  induction s using Finset.induction_on with
  | empty => simp
  | insert hnotmem ih =>
      rename_i a s
      rw [Finset.fold_insert hnotmem]
      exact le_trans (min_le_right _ _) ih

theorem fold_min_le_mem {s : Finset Nat} {a : Nat} (b : Nat) (h : a ∈ s) :
    s.fold min b id ≤ a := by
  induction s using Finset.induction_on with
  | empty => simp at h
  | insert hnotmem ih =>
      rename_i c s
      rw [Finset.fold_insert hnotmem]
      rcases Finset.mem_insert.mp h with rfl | h
      · exact min_le_left _ _
      · exact le_trans (min_le_right _ _) (ih h)

theorem compMin_le {m : CSCBinaryMatrix} {v u : Nat} (h : u ∈ reach m v) :
    compMin m v ≤ u :=
  fold_min_le_mem v h

theorem compMin_le_self (m : CSCBinaryMatrix) (v : Nat) : compMin m v ≤ v :=
  fold_min_le_base _ v

theorem compMin_mem (m : CSCBinaryMatrix) (v : Nat) : compMin m v ∈ reach m v := by
  rcases fold_min_mem (reach m v) v with h | h
  · unfold compMin
    rw [h]
    exact mem_self_reach m v
  · exact h

theorem fold_min_eq_of_mem {s : Finset Nat} {b b2 : Nat} (hb : b ∈ s) (hb2 : b2 ∈ s) :
    s.fold min b id = s.fold min b2 id := by
  have h1 : s.fold min b id ≤ s.fold min b2 id := by
    rcases fold_min_mem s b2 with h | h
    · rw [h]
      exact fold_min_le_mem b hb2
    · exact fold_min_le_mem b h
  have h2 : s.fold min b2 id ≤ s.fold min b id := by
    rcases fold_min_mem s b with h | h
    · rw [h]
      exact fold_min_le_mem b2 hb
    · exact fold_min_le_mem b2 h
  omega

theorem compMin_congr {m : CSCBinaryMatrix} (hv : ValidCSC m)
    (hsq : m.ncols ≤ m.nrows) {u v : Nat} (hun : u < m.nrows) (hvn : v < m.nrows)
    (h : Connected m u v) : compMin m u = compMin m v := by
  unfold compMin
  rw [reach_congr hv hsq hun hvn h]
  exact fold_min_eq_of_mem
    (reach_congr hv hsq hun hvn h ▸ mem_self_reach m u) (mem_self_reach m v)

theorem compMin_lt {m : CSCBinaryMatrix} (hv : ValidCSC m)
    (hsq : m.ncols ≤ m.nrows) {v : Nat} (hvn : v < m.nrows) :
    compMin m v < m.nrows :=
  lt_of_le_of_lt (compMin_le_self m v) hvn

theorem compMin_connected (m : CSCBinaryMatrix) (v : Nat) :
    Connected m v (compMin m v) :=
  reach_sound (compMin_mem m v)

theorem compMin_idem {m : CSCBinaryMatrix} (hv : ValidCSC m)
    (hsq : m.ncols ≤ m.nrows) {v : Nat} (hvn : v < m.nrows) :
    compMin m (compMin m v) = compMin m v :=
  compMin_congr hv hsq (compMin_lt hv hsq hvn) hvn
    (connected_symm (compMin_connected m v))

/-! ## Label propagation: the edge update -/

theorem lp_edge_eq_same (lab : List Nat) {c r : Nat}
    (h : lget lab c = lget lab r) : lp_edge lab c r = (lab, false) := by
  unfold lp_edge
  rw [if_neg (not_not_intro h)]

theorem lp_edge_eq_write_c (lab : List Nat) {c r : Nat}
    (hne : lget lab c ≠ lget lab r)
    (hcm : lget lab c ≠ min (lget lab c) (lget lab r)) :
    lp_edge lab c r = (lset lab c (min (lget lab c) (lget lab r)), true) := by
  unfold lp_edge
  rw [if_pos hne, if_pos hcm]

theorem lp_edge_eq_write_r (lab : List Nat) {c r : Nat}
    (hne : lget lab c ≠ lget lab r)
    (hcm : lget lab c = min (lget lab c) (lget lab r)) :
    lp_edge lab c r = (lset lab r (min (lget lab c) (lget lab r)), true) := by
  unfold lp_edge
  rw [if_pos hne, if_neg (not_not_intro hcm)]

theorem lp_edge_fst_same (lab : List Nat) {c r : Nat}
    (h : lget lab c = lget lab r) : (lp_edge lab c r).1 = lab := by
  rw [lp_edge_eq_same lab h]

theorem lp_edge_fst_write_c (lab : List Nat) {c r : Nat}
    (hne : lget lab c ≠ lget lab r)
    (hcm : lget lab c ≠ min (lget lab c) (lget lab r)) :
    (lp_edge lab c r).1 = lset lab c (min (lget lab c) (lget lab r)) := by
  rw [lp_edge_eq_write_c lab hne hcm]

theorem lp_edge_fst_write_r (lab : List Nat) {c r : Nat}
    (hne : lget lab c ≠ lget lab r)
    (hcm : lget lab c = min (lget lab c) (lget lab r)) :
    (lp_edge lab c r).1 = lset lab r (min (lget lab c) (lget lab r)) := by
  rw [lp_edge_eq_write_r lab hne hcm]

theorem lp_edge_snd_same (lab : List Nat) {c r : Nat}
    (h : lget lab c = lget lab r) : (lp_edge lab c r).2 = false := by
  rw [lp_edge_eq_same lab h]

theorem lp_edge_snd_ne (lab : List Nat) {c r : Nat}
    (hne : lget lab c ≠ lget lab r) : (lp_edge lab c r).2 = true := by
  by_cases hcm : lget lab c = min (lget lab c) (lget lab r)
  · rw [lp_edge_eq_write_r lab hne hcm]
  · rw [lp_edge_eq_write_c lab hne hcm]

theorem min_lt_of_write_c {a b : Nat} (hcm : a ≠ min a b) : min a b < a :=
  lt_of_le_of_ne (min_le_left _ _) (Ne.symm hcm)

theorem min_lt_of_write_r {a b : Nat} (hne : a ≠ b) (hcm : a = min a b) :
    min a b < b := by
  rcases min_choice a b with hm | hm
  · rw [hm]
    rcases Nat.lt_or_ge a b with h2 | h2
    · exact h2
    · have : b ≤ min a b := le_min h2 (le_refl b)
      omega
  · exact absurd (hcm.trans hm) hne

theorem lp_edge_length (lab : List Nat) (c r : Nat) :
    ((lp_edge lab c r).1).length = lab.length := by
  by_cases h : lget lab c = lget lab r
  · rw [lp_edge_fst_same lab h]
  · by_cases hcm : lget lab c = min (lget lab c) (lget lab r)
    · rw [lp_edge_fst_write_r lab h hcm]
      exact List.length_set lab r _
    · rw [lp_edge_fst_write_c lab h hcm]
      exact List.length_set lab c _

theorem lp_edge_le (lab : List Nat) (c r i : Nat) :
    lget (lp_edge lab c r).1 i ≤ lget lab i := by
  by_cases h : lget lab c = lget lab r
  · rw [lp_edge_fst_same lab h]
  · by_cases hcm : lget lab c = min (lget lab c) (lget lab r)
    · rw [lp_edge_fst_write_r lab h hcm]
      by_cases hir : r = i
      · subst hir
        rcases Nat.lt_or_ge r lab.length with hr | hr
        · rw [lget_set_self _ _ hr]
          exact min_le_right _ _
        · rw [lset_oob _ _ hr]
      · rw [lget_set_ne _ _ hir]
    · rw [lp_edge_fst_write_c lab h hcm]
      by_cases hic : c = i
      · subst hic
        rcases Nat.lt_or_ge c lab.length with hc | hc
        · rw [lget_set_self _ _ hc]
          exact min_le_left _ _
        · rw [lset_oob _ _ hc]
      · rw [lget_set_ne _ _ hic]

theorem lp_edge_strict (lab : List Nat) (c r i : Nat)
    (h : lget (lp_edge lab c r).1 i ≠ lget lab i) :
    lget (lp_edge lab c r).1 i < lget lab i :=
  lt_of_le_of_ne (lp_edge_le lab c r i) h

theorem lp_edge_false (lab : List Nat) (c r : Nat)
    (h : (lp_edge lab c r).2 = false) :
    (lp_edge lab c r).1 = lab ∧ lget lab c = lget lab r := by
  by_cases hne : lget lab c = lget lab r
  · exact ⟨lp_edge_fst_same lab hne, hne⟩
  · rw [lp_edge_snd_ne lab hne] at h
    exact absurd h (by simp)

theorem lp_edge_sum_le (lab : List Nat) (c r : Nat) :
    ((lp_edge lab c r).1).sum ≤ lab.sum := by
  by_cases h : lget lab c = lget lab r
  · rw [lp_edge_fst_same lab h]
  · by_cases hcm : lget lab c = min (lget lab c) (lget lab r)
    · rw [lp_edge_fst_write_r lab h hcm]
      rcases Nat.lt_or_ge r lab.length with hr | hr
      · have h1 := sum_lset lab (min (lget lab c) (lget lab r)) hr
        have h2 : min (lget lab c) (lget lab r) ≤ lget lab r := min_le_right _ _
        omega
      · rw [lset_oob _ _ hr]
    · rw [lp_edge_fst_write_c lab h hcm]
      rcases Nat.lt_or_ge c lab.length with hc | hc
      · have h1 := sum_lset lab (min (lget lab c) (lget lab r)) hc
        have h2 : min (lget lab c) (lget lab r) ≤ lget lab c := min_le_left _ _
        omega
      · rw [lset_oob _ _ hc]

theorem lp_edge_sum_lt (lab : List Nat) (c r : Nat)
    (h : (lp_edge lab c r).2 = true) :
    ((lp_edge lab c r).1).sum < lab.sum := by
  by_cases hne : lget lab c = lget lab r
  · rw [lp_edge_snd_same lab hne] at h
    exact absurd h (by simp)
  · by_cases hcm : lget lab c = min (lget lab c) (lget lab r)
    · rw [lp_edge_fst_write_r lab hne hcm]
      have hmlt := min_lt_of_write_r hne hcm
      have hr : r < lab.length := by
        by_contra hno
        rw [lget_oob lab (show lab.length ≤ r by omega)] at hmlt
        exact absurd hmlt (by omega)
      have h1 := sum_lset lab (min (lget lab c) (lget lab r)) hr
      omega
    · rw [lp_edge_fst_write_c lab hne hcm]
      have hmlt := min_lt_of_write_c hcm
      have hc : c < lab.length := by
        by_contra hno
        rw [lget_oob lab (show lab.length ≤ c by omega)] at hmlt
        exact absurd hmlt (by omega)
      have h1 := sum_lset lab (min (lget lab c) (lget lab r)) hc
      omega

theorem lp_edge_connInv {m : CSCBinaryMatrix} {lab : List Nat} {c r : Nat}
    (hC : ConnInv m lab) (hc : c < lab.length) (hr : r < lab.length)
    (hadj : Adj m c r) : ConnInv m (lp_edge lab c r).1 := by
  intro v hv
  rw [lp_edge_length] at hv
  by_cases h : lget lab c = lget lab r
  · rw [lp_edge_fst_same lab h]
    exact hC v hv
  · by_cases hcm : lget lab c = min (lget lab c) (lget lab r)
    · rw [lp_edge_fst_write_r lab h hcm]
      by_cases hir : r = v
      · subst hir
        rw [lget_set_self _ _ hr, ← hcm]
        exact connected_trans (connected_of_adj (adj_symm hadj)) (hC c hc)
      · rw [lget_set_ne _ _ hir]
        exact hC v hv
    · rw [lp_edge_fst_write_c lab h hcm]
      by_cases hic : c = v
      · subst hic
        have hmr : min (lget lab c) (lget lab r) = lget lab r := by
          rcases min_choice (lget lab c) (lget lab r) with hm | hm
          · exact absurd hm.symm hcm
          · exact hm
        rw [lget_set_self _ _ hc, hmr]
        exact connected_trans (connected_of_adj hadj) (hC r hr)
      · rw [lget_set_ne _ _ hic]
        exact hC v hv


/-! ## Label propagation: passes and the convergence loop -/

theorem lp_fold_length :
    ∀ (es : List (Nat × Nat)) (lab : List Nat) (b : Bool),
      ((es.foldl lpStep (lab, b)).1).length = lab.length := by
  intro es
  induction es with
  | nil => intro lab b; rfl
  | cons p es ih =>
      intro lab b
      rw [List.foldl_cons]
      show ((es.foldl lpStep ((lp_edge lab p.2 p.1).1, _)).1).length = lab.length
      rw [ih, lp_edge_length]

theorem lp_fold_le :
    ∀ (es : List (Nat × Nat)) (lab : List Nat) (b : Bool) (i : Nat),
      lget ((es.foldl lpStep (lab, b)).1) i ≤ lget lab i := by
  intro es
  induction es with
  | nil => intro lab b i; exact le_refl _
  | cons p es ih =>
      intro lab b i
      rw [List.foldl_cons]
      exact le_trans (ih _ _ i) (lp_edge_le lab p.2 p.1 i)

theorem lp_fold_flag_true :
    ∀ (es : List (Nat × Nat)) (lab : List Nat),
      (es.foldl lpStep (lab, true)).2 = true := by
  intro es
  induction es with
  | nil => intro lab; rfl
  | cons p es ih =>
      intro lab
      rw [List.foldl_cons]
      show (es.foldl lpStep ((lp_edge lab p.2 p.1).1, true || _)).2 = true
      rw [Bool.true_or]
      exact ih _

theorem lp_fold_false :
    ∀ (es : List (Nat × Nat)) (lab : List Nat) (b : Bool),
      (es.foldl lpStep (lab, b)).2 = false →
        b = false ∧ (es.foldl lpStep (lab, b)).1 = lab ∧
          ∀ p ∈ es, lget lab p.2 = lget lab p.1 := by
  intro es
  induction es with
  | nil =>
      intro lab b h
      exact ⟨h, rfl, by intro p hp; simp at hp⟩
  | cons p es ih =>
      intro lab b h
      rw [List.foldl_cons] at h ⊢
      have hstep : lpStep (lab, b) p = ((lp_edge lab p.2 p.1).1, b || (lp_edge lab p.2 p.1).2) := rfl
      rw [hstep] at h ⊢
      rcases ih _ _ h with ⟨hflag, hlab, hall⟩
      have hb : b = false := by
        cases b
        · rfl
        · simp at hflag
      have hflag2 : (lp_edge lab p.2 p.1).2 = false := by
        cases hfe : (lp_edge lab p.2 p.1).2
        · rfl
        · rw [hb, hfe] at hflag
          simp at hflag
      rcases lp_edge_false lab p.2 p.1 hflag2 with ⟨hfst, heq⟩
      refine ⟨hb, ?_, ?_⟩
      · rw [hlab, hfst]
      · intro q hq
        rcases List.mem_cons.mp hq with rfl | hq
        · exact heq
        · have := hall q hq
          rwa [hfst] at this

theorem lp_fold_sum_le :
    ∀ (es : List (Nat × Nat)) (lab : List Nat) (b : Bool),
      ((es.foldl lpStep (lab, b)).1).sum ≤ lab.sum := by
  intro es
  induction es with
  | nil => intro lab b; exact le_refl _
  | cons p es ih =>
      intro lab b
      rw [List.foldl_cons]
      exact le_trans (ih _ _) (lp_edge_sum_le lab p.2 p.1)

theorem lp_fold_sum_lt :
    ∀ (es : List (Nat × Nat)) (lab : List Nat),
      (es.foldl lpStep (lab, false)).2 = true →
        ((es.foldl lpStep (lab, false)).1).sum < lab.sum := by
  intro es
  induction es with
  | nil =>
      intro lab h
      exact absurd h (by simp)
  | cons p es ih =>
      intro lab h
      rw [List.foldl_cons] at h ⊢
      have hstep : lpStep (lab, false) p
          = ((lp_edge lab p.2 p.1).1, (lp_edge lab p.2 p.1).2) := by
        show ((lp_edge lab p.2 p.1).1, false || (lp_edge lab p.2 p.1).2)
          = ((lp_edge lab p.2 p.1).1, (lp_edge lab p.2 p.1).2)
        rw [Bool.false_or]
      rw [hstep] at h ⊢
      cases hfe : (lp_edge lab p.2 p.1).2
      · rw [hfe] at h
        rcases lp_edge_false lab p.2 p.1 hfe with ⟨hfst, _⟩
        rw [hfst] at h ⊢
        exact ih lab h
      · have h1 : ((es.foldl lpStep ((lp_edge lab p.2 p.1).1, true)).1).sum
            ≤ ((lp_edge lab p.2 p.1).1).sum := lp_fold_sum_le es _ true
        have h2 := lp_edge_sum_lt lab p.2 p.1 hfe
        omega

theorem lp_fold_connInv {m : CSCBinaryMatrix} :
    ∀ (es : List (Nat × Nat)) (lab : List Nat) (b : Bool),
      (∀ p ∈ es, p.1 < lab.length ∧ p.2 < lab.length ∧ Adj m p.2 p.1) →
      ConnInv m lab → ConnInv m ((es.foldl lpStep (lab, b)).1) := by
  intro es
  induction es with
  | nil => intro lab b _ hC; exact hC
  | cons p es ih =>
      intro lab b hbound hC
      rw [List.foldl_cons]
      have hp := hbound p (List.mem_cons_self p es)
      refine ih _ _ ?_ (lp_edge_connInv hC hp.2.1 hp.1 hp.2.2)
      intro q hq
      have := hbound q (List.mem_cons_of_mem p hq)
      rw [lp_edge_length]
      exact this

theorem lp_fold_labelInv :
    ∀ (es : List (Nat × Nat)) (lab : List Nat) (b : Bool),
      LabelInv lab → LabelInv ((es.foldl lpStep (lab, b)).1) := by
  intro es lab b hL v hvlen
  rw [lp_fold_length] at hvlen
  exact le_trans (lp_fold_le es lab b v) (hL v hvlen)

theorem lp_loop_succ (fuel : Nat) (m : CSCBinaryMatrix) (lab : List Nat) :
    lp_loop (fuel + 1) m lab =
      if (lp_pass m lab).2 then lp_loop fuel m (lp_pass m lab).1
      else (lp_pass m lab).1 := rfl

theorem lp_pass_fst_length (m : CSCBinaryMatrix) (lab : List Nat) :
    ((lp_pass m lab).1).length = lab.length :=
  lp_fold_length (allEdges m) lab false

theorem lp_loop_length :
    ∀ (fuel : Nat) (m : CSCBinaryMatrix) (lab : List Nat),
      (lp_loop fuel m lab).length = lab.length := by
  intro fuel
  induction fuel with
  | zero => intro m lab; rfl
  | succ f ih =>
      intro m lab
      rw [lp_loop_succ]
      by_cases h : (lp_pass m lab).2
      · rw [if_pos h, ih, lp_pass_fst_length]
      · rw [if_neg h, lp_pass_fst_length]

theorem lp_pass_def (m : CSCBinaryMatrix) (lab : List Nat) :
    lp_pass m lab = (allEdges m).foldl lpStep (lab, false) := rfl

theorem lp_loop_converged {m : CSCBinaryMatrix} :
    ∀ (fuel : Nat) (lab : List Nat), lab.sum < fuel →
      (lp_pass m (lp_loop fuel m lab)).2 = false := by
  intro fuel
  induction fuel with
  | zero => intro lab h; omega
  | succ f ih =>
      intro lab h
      rw [lp_loop_succ]
      by_cases hp : (lp_pass m lab).2 = true
      · rw [if_pos hp]
        have hlt : ((lp_pass m lab).1).sum < lab.sum := by
          have h2 := lp_fold_sum_lt (allEdges m) lab (by rw [← lp_pass_def]; exact hp)
          rw [← lp_pass_def] at h2
          exact h2
        exact ih _ (by omega)
      · rw [if_neg hp]
        have hp2 : (lp_pass m lab).2 = false := by
          cases h2 : (lp_pass m lab).2
          · rfl
          · exact absurd h2 hp
        have hfst : (lp_pass m lab).1 = lab := by
          have h3 := (lp_fold_false (allEdges m) lab false
            (by rw [← lp_pass_def]; exact hp2)).2.1
          rw [← lp_pass_def] at h3
          exact h3
        rw [hfst]
        exact hp2


/-! ## Label propagation: canonical labels at convergence -/

theorem allEdges_bounds {m : CSCBinaryMatrix} (hv : ValidCSC m)
    (hsq : m.ncols ≤ m.nrows) :
    ∀ p ∈ allEdges m, p.1 < m.nrows ∧ p.2 < m.nrows ∧ Adj m p.2 p.1 := by
  intro p hp
  have hpe : (p.1, p.2) ∈ allEdges m := by
    rwa [Prod.mk.eta]
  refine ⟨edge_row_lt hv hpe, ?_, Or.inr hpe⟩
  have := edge_col_lt hpe
  omega

theorem lp_labels_length (m : CSCBinaryMatrix) :
    (lp_labels m).length = m.nrows := by
  unfold lp_labels
  rw [lp_loop_length]
  exact List.length_range m.nrows

theorem lp_loop_labelInv :
    ∀ (fuel : Nat) (m : CSCBinaryMatrix) (lab : List Nat),
      LabelInv lab → LabelInv (lp_loop fuel m lab) := by
  intro fuel
  induction fuel with
  | zero => intro m lab h; exact h
  | succ f ih =>
      intro m lab h
      rw [lp_loop_succ]
      by_cases hp : (lp_pass m lab).2 = true
      · rw [if_pos hp]
        exact ih m _ (lp_fold_labelInv (allEdges m) lab false h)
      · rw [if_neg hp]
        exact lp_fold_labelInv (allEdges m) lab false h

theorem labelInv_range (n : Nat) : LabelInv (List.range n) := by
  intro v hv
  rw [List.length_range] at hv
  rw [lget_range hv]

theorem lp_labels_labelInv (m : CSCBinaryMatrix) : LabelInv (lp_labels m) :=
  lp_loop_labelInv (lp_fuel m) m (List.range m.nrows) (labelInv_range m.nrows)

theorem lp_loop_connInv {m : CSCBinaryMatrix} :
    ∀ (fuel : Nat) (lab : List Nat),
      (∀ p ∈ allEdges m, p.1 < lab.length ∧ p.2 < lab.length ∧ Adj m p.2 p.1) →
      ConnInv m lab → ConnInv m (lp_loop fuel m lab) := by
  intro fuel
  induction fuel with
  | zero => intro lab _ h; exact h
  | succ f ih =>
      intro lab hb h
      rw [lp_loop_succ]
      by_cases hp : (lp_pass m lab).2 = true
      · rw [if_pos hp]
        refine ih _ ?_ (lp_fold_connInv (allEdges m) lab false hb h)
        intro p hpe
        rw [lp_pass_fst_length]
        exact hb p hpe
      · rw [if_neg hp]
        exact lp_fold_connInv (allEdges m) lab false hb h

theorem connInv_range (m : CSCBinaryMatrix) (n : Nat) :
    ConnInv m (List.range n) := by
  intro v hv
  rw [List.length_range] at hv
  rw [lget_range hv]
  exact connected_refl m v

theorem lp_labels_connInv {m : CSCBinaryMatrix} (hv : ValidCSC m)
    (hsq : m.ncols ≤ m.nrows) : ConnInv m (lp_labels m) := by
  refine lp_loop_connInv (lp_fuel m) (List.range m.nrows) ?_ (connInv_range m m.nrows)
  intro p hp
  rw [List.length_range]
  exact allEdges_bounds hv hsq p hp

theorem sum_range_le (n : Nat) : (List.range n).sum ≤ n * n := by
  induction n with
  | zero => simp
  | succ k ih =>
      rw [List.range_succ, List.sum_append]
      have hexp : (k + 1) * (k + 1) = k * k + 2 * k + 1 := by ring
      simp only [List.sum_cons, List.sum_nil]
      omega

theorem lp_labels_converged (m : CSCBinaryMatrix) :
    (lp_pass m (lp_labels m)).2 = false := by
  unfold lp_labels
  refine lp_loop_converged (lp_fuel m) (List.range m.nrows) ?_
  have := sum_range_le m.nrows
  unfold lp_fuel
  omega

theorem lp_labels_edge_eq (m : CSCBinaryMatrix) :
    ∀ p ∈ allEdges m, lget (lp_labels m) p.2 = lget (lp_labels m) p.1 := by
  have h := lp_labels_converged m
  rw [lp_pass_def] at h
  exact (lp_fold_false (allEdges m) (lp_labels m) false h).2.2

theorem lp_labels_conn_eq (m : CSCBinaryMatrix) {u v : Nat}
    (h : Connected m u v) : lget (lp_labels m) u = lget (lp_labels m) v := by
  induction h with
  | refl => rfl
  | tail hc hadj ih =>
      rcases hadj with he | he
      · exact ih.trans (lp_labels_edge_eq m _ he).symm
      · exact ih.trans (lp_labels_edge_eq m _ he)

theorem lp_labels_eq_compMin {m : CSCBinaryMatrix} (hv : ValidCSC m)
    (hsq : m.ncols ≤ m.nrows) {v : Nat} (hvn : v < m.nrows) :
    lget (lp_labels m) v = compMin m v := by
  have hlen := lp_labels_length m
  have ha : Connected m v (lget (lp_labels m) v) :=
    lp_labels_connInv hv hsq v (by omega)
  have h1 : compMin m v ≤ lget (lp_labels m) v :=
    compMin_le (reach_complete hv hsq hvn ha)
  have h2 : lget (lp_labels m) v ≤ compMin m v := by
    have heq := lp_labels_conn_eq m (compMin_connected m v)
    have hL := lp_labels_labelInv m (compMin m v)
      (by rw [hlen]; exact compMin_lt hv hsq hvn)
    omega
  omega

theorem lp_labels_eq_iff_connected {m : CSCBinaryMatrix} (hv : ValidCSC m)
    (hsq : m.ncols ≤ m.nrows) {u v : Nat} (hun : u < m.nrows) (hvn : v < m.nrows) :
    lget (lp_labels m) u = lget (lp_labels m) v ↔ Connected m u v := by
  constructor
  · intro h
    rw [lp_labels_eq_compMin hv hsq hun, lp_labels_eq_compMin hv hsq hvn] at h
    have h1 := compMin_connected m u
    have h2 := compMin_connected m v
    exact connected_trans h1 (h ▸ connected_symm h2)
  · exact lp_labels_conn_eq m


/-! ## The bitmap counter -/

theorem popcount_zero : popcount 0 = 0 := by
  rw [popcount]
  rfl

theorem popcount_ne {n : Nat} (h : n ≠ 0) :
    popcount n = n % 2 + popcount (n / 2) := by
  rw [popcount]
  rw [dif_neg h]

theorem popcount_eq_card :
    ∀ (k n : Nat), n < 2 ^ k →
      popcount n = ((Finset.range k).filter (fun t => n.testBit t = true)).card := by
  intro k
  induction k with
  | zero =>
      intro n h
      rw [pow_zero] at h
      have h1 : n = 0 := by omega
      subst h1
      simp [popcount_zero]
  | succ k ih =>
      intro n h
      by_cases h0 : n = 0
      · subst h0
        simp [popcount_zero, Nat.zero_testBit]
      · rw [popcount_ne h0]
        have hdiv : n / 2 < 2 ^ k := by
          rw [pow_succ] at h
          omega
        rw [ih (n / 2) hdiv]
        rw [Finset.card_filter, Finset.card_filter, Finset.sum_range_succ']
        have hbit : ∀ i, (n.testBit (i + 1) = true) = ((n / 2).testBit i = true) := by
          intro i
          rw [Nat.testBit_succ]
        simp only [hbit]
        have h2 : (if n.testBit 0 = true then 1 else 0) = n % 2 := by
          rw [Nat.testBit_zero]
          rcases Nat.mod_two_eq_zero_or_one n with hm | hm <;> simp [hm]
        omega

theorem and63_eq_mod (v : Nat) : v &&& 63 = v % 64 := by
  have h1 : (63 : Nat) = 2 ^ 6 - 1 := by norm_num
  have h2 : (64 : Nat) = 2 ^ 6 := by norm_num
  rw [h1, h2]
  exact Nat.and_pow_two_sub_one_eq_mod v 6

theorem shift6_eq_div (v : Nat) : v >>> 6 = v / 64 := by
  have h2 : (64 : Nat) = 2 ^ 6 := by norm_num
  rw [h2]
  exact Nat.shiftRight_eq_div_pow v 6

theorem bmStep_length (lab bm : List Nat) (i : Nat) :
    (bmStep lab bm i).length = bm.length :=
  List.length_set bm _ _

theorem bmStep_bound {lab bm : List Nat} {i : Nat}
    (h : ∀ w ∈ bm, w < 2 ^ 64) : ∀ w ∈ bmStep lab bm i, w < 2 ^ 64 := by
  intro w hw
  rcases List.mem_or_eq_of_mem_set hw with hmem | rfl
  · exact h w hmem
  · have hold : lget bm (lget lab i >>> 6) < 2 ^ 64 := by
      rcases Nat.lt_or_ge (lget lab i >>> 6) bm.length with hlt | hge
      · exact h _ (lget_lt_length hlt)
      · rw [lget_oob bm hge]
        exact Nat.pos_pow_of_pos 64 (by omega)
    have hshift : 1 <<< (lget lab i &&& 63) < 2 ^ 64 := by
      rw [Nat.one_shiftLeft]
      exact Nat.pow_lt_pow_right (by omega) (by rw [and63_eq_mod]; omega)
    exact Nat.or_lt_two_pow hold hshift

theorem bmStep_testBit (lab bm : List Nat) (i q t : Nat) (hq : q < bm.length)
    (ht : t < 64) :
    ((lget (bmStep lab bm i) q).testBit t = true ↔
      (lget bm q).testBit t = true ∨ lget lab i = 64 * q + t) := by
  unfold bmStep
  by_cases hqv : lget lab i >>> 6 = q
  · rw [hqv, lget_set_self _ _ hq, Nat.testBit_or]
    have hpow : (1 <<< (lget lab i &&& 63)).testBit t = decide (lget lab i &&& 63 = t) := by
      rw [Nat.one_shiftLeft, Nat.testBit_two_pow]
    rw [hpow]
    rw [shift6_eq_div] at hqv
    constructor
    · intro hor
      rcases Bool.or_eq_true_iff.mp hor with hb | hb
      · exact Or.inl hb
      · have := of_decide_eq_true hb
        rw [and63_eq_mod] at this
        right
        omega
    · intro hor
      rcases hor with hb | hb
      · rw [hb]
        simp
      · have hm : lget lab i &&& 63 = t := by
          rw [and63_eq_mod]
          omega
        rw [hm]
        simp
  · rw [lget_set_ne _ _ hqv]
    constructor
    · exact Or.inl
    · intro hor
      rcases hor with hb | hb
      · exact hb
      · exfalso
        rw [shift6_eq_div] at hqv
        omega

theorem bm_fold_length :
    ∀ (is : List Nat) (lab bm : List Nat),
      (is.foldl (bmStep lab) bm).length = bm.length := by
  intro is
  induction is with
  | nil => intro lab bm; rfl
  | cons i is ih =>
      intro lab bm
      rw [List.foldl_cons, ih, bmStep_length]

theorem bm_fold_bound :
    ∀ (is : List Nat) (lab bm : List Nat), (∀ w ∈ bm, w < 2 ^ 64) →
      ∀ w ∈ is.foldl (bmStep lab) bm, w < 2 ^ 64 := by
  intro is
  induction is with
  | nil => intro lab bm h; exact h
  | cons i is ih =>
      intro lab bm h
      rw [List.foldl_cons]
      exact ih lab _ (bmStep_bound h)

theorem bm_fold_testBit :
    ∀ (is : List Nat) (lab bm : List Nat) (q t : Nat), q < bm.length → t < 64 →
      ((lget (is.foldl (bmStep lab) bm) q).testBit t = true ↔
        (lget bm q).testBit t = true ∨ ∃ i ∈ is, lget lab i = 64 * q + t) := by
  intro is
  induction is with
  | nil =>
      intro lab bm q t hq ht
      simp
  | cons i is ih =>
      intro lab bm q t hq ht
      rw [List.foldl_cons]
      rw [ih lab _ q t (by rw [bmStep_length]; exact hq) ht]
      rw [bmStep_testBit lab bm i q t hq ht]
      constructor
      · rintro ((hb | hb) | ⟨j, hj, hej⟩)
        · exact Or.inl hb
        · exact Or.inr ⟨i, List.mem_cons_self i is, hb⟩
        · exact Or.inr ⟨j, List.mem_cons_of_mem i hj, hej⟩
      · rintro (hb | ⟨j, hj, hej⟩)
        · exact Or.inl (Or.inl hb)
        · rcases List.mem_cons.mp hj with rfl | hj2
          · exact Or.inl (Or.inr hej)
          · exact Or.inr ⟨j, hj2, hej⟩

theorem lget_replicate_zero : ∀ (B q : Nat), lget (List.replicate B 0) q = 0 := by
  intro B
  induction B with
  | zero => intro q; rfl
  | succ b ih =>
      intro q
      cases q with
      | zero => rfl
      | succ j => exact ih j

theorem bitmapBuild_length (n : Nat) (lab : List Nat) :
    (bitmapBuild n lab).length = bsz n := by
  unfold bitmapBuild
  rw [bm_fold_length]
  exact List.length_replicate _ _

theorem bitmapBuild_bound (n : Nat) (lab : List Nat) :
    ∀ w ∈ bitmapBuild n lab, w < 2 ^ 64 := by
  unfold bitmapBuild
  refine bm_fold_bound _ _ _ ?_
  intro w hw
  rw [List.eq_of_mem_replicate hw]
  exact Nat.pos_pow_of_pos 64 (by omega)

theorem bitmapBuild_testBit (n : Nat) (lab : List Nat) (q t : Nat)
    (hq : q < bsz n) (ht : t < 64) :
    ((lget (bitmapBuild n lab) q).testBit t = true ↔
      ∃ i ∈ List.range n, lget lab i = 64 * q + t) := by
  unfold bitmapBuild
  rw [bm_fold_testBit (List.range n) lab _ q t
    (by rw [List.length_replicate]; exact hq) ht]
  rw [lget_replicate_zero]
  simp [Nat.zero_testBit]


theorem foldl_add_popcount :
    ∀ (l : List Nat) (a : Nat),
      l.foldl (fun acc w => acc + popcount w) a = a + (l.map popcount).sum := by
  intro l
  induction l with
  | nil => intro a; simp
  | cons w l ih =>
      intro a
      rw [List.foldl_cons, ih, List.map_cons, List.sum_cons]
      omega

theorem map_sum_eq_sum_range :
    ∀ (l : List Nat) (f : Nat → Nat),
      (l.map f).sum = ∑ q ∈ Finset.range l.length, f (lget l q) := by
  intro l
  induction l with
  | nil => intro f; simp
  | cons a l ih =>
      intro f
      rw [List.map_cons, List.sum_cons, List.length_cons, Finset.sum_range_succ']
      have h1 : ∀ q, lget (a :: l) (q + 1) = lget l q := by
        intro q
        simp [lget, List.getD_cons_succ]
      have h0 : lget (a :: l) 0 = a := rfl
      simp only [h1, h0]
      rw [ih f]
      omega

theorem card_filter_range_mul :
    ∀ (B : Nat) (P : Nat → Prop) [DecidablePred P],
      ((Finset.range (64 * B)).filter P).card =
        ∑ q ∈ Finset.range B, ((Finset.range 64).filter (fun t => P (64 * q + t))).card := by
  intro B
  induction B with
  | zero => intro P _; simp
  | succ b ih =>
      intro P hdec
      have hsplit : 64 * (b + 1) = 64 * b + 64 := by ring
      rw [hsplit, Finset.range_add (64 * b) 64, Finset.filter_union]
      have hdisj : Disjoint ((Finset.range (64 * b)).filter P)
          (((Finset.range 64).map (addLeftEmbedding (64 * b))).filter P) := by
        rw [Finset.disjoint_left]
        intro a ha hb
        have h1 : a < 64 * b := Finset.mem_range.mp (Finset.mem_filter.mp ha).1
        have h2 := (Finset.mem_filter.mp hb).1
        rcases Finset.mem_map.mp h2 with ⟨t, _, hta⟩
        have : 64 * b + t = a := hta
        omega
      rw [Finset.card_union_of_disjoint hdisj, ih P, Finset.sum_range_succ]
      have hmap : (((Finset.range 64).map (addLeftEmbedding (64 * b))).filter P).card
          = ((Finset.range 64).filter (fun t => P (64 * b + t))).card := by
        rw [Finset.filter_map, Finset.card_map]
        rfl
      omega

theorem lpCount_eq_card (n : Nat) (lab : List Nat)
    (hlt : ∀ i, i < n → lget lab i < n) :
    lpCount n lab =
      ((Finset.range n).filter (fun v => ∃ i ∈ Finset.range n, lget lab i = v)).card := by
  unfold lpCount
  rw [foldl_add_popcount, Nat.zero_add, map_sum_eq_sum_range, bitmapBuild_length]
  have hstep1 : ∀ q ∈ Finset.range (bsz n),
      popcount (lget (bitmapBuild n lab) q) =
        ((Finset.range 64).filter
          (fun t => (lget (bitmapBuild n lab) q).testBit t = true)).card := by
    intro q hq
    refine popcount_eq_card 64 _ ?_
    rcases Nat.lt_or_ge q (bitmapBuild n lab).length with hlt2 | hge
    · exact bitmapBuild_bound n lab _ (lget_lt_length hlt2)
    · rw [lget_oob _ hge]
      exact Nat.pos_pow_of_pos 64 (by omega)
  rw [Finset.sum_congr rfl hstep1]
  have hstep2 : ∀ q ∈ Finset.range (bsz n),
      ((Finset.range 64).filter
        (fun t => (lget (bitmapBuild n lab) q).testBit t = true)).card =
      ((Finset.range 64).filter
        (fun t => (lget (bitmapBuild n lab) ((64 * q + t) / 64)).testBit ((64 * q + t) % 64) = true)).card := by
    intro q hq
    congr 1
    refine Finset.filter_congr ?_
    intro t htr
    have ht : t < 64 := Finset.mem_range.mp htr
    have hd : (64 * q + t) / 64 = q := by omega
    have hm : (64 * q + t) % 64 = t := by omega
    rw [hd, hm]
  rw [Finset.sum_congr rfl hstep2]
  rw [← card_filter_range_mul (bsz n)
    (fun v => (lget (bitmapBuild n lab) (v / 64)).testBit (v % 64) = true)]
  have hiff : ∀ v, v ∈ Finset.range (64 * bsz n) →
      ((lget (bitmapBuild n lab) (v / 64)).testBit (v % 64) = true ↔
        ∃ i ∈ Finset.range n, lget lab i = v) := by
    intro v hvr
    have hv : v < 64 * bsz n := Finset.mem_range.mp hvr
    have hq : v / 64 < bsz n := by omega
    have ht : v % 64 < 64 := by omega
    rw [bitmapBuild_testBit n lab (v / 64) (v % 64) hq ht]
    have hvd : 64 * (v / 64) + v % 64 = v := by omega
    rw [hvd]
    constructor
    · rintro ⟨i, hi, he⟩
      exact ⟨i, Finset.mem_range.mpr (List.mem_range.mp hi), he⟩
    · rintro ⟨i, hi, he⟩
      exact ⟨i, List.mem_range.mpr (Finset.mem_range.mp hi), he⟩
  rw [Finset.filter_congr hiff]
  have hle : n ≤ 64 * bsz n := by
    unfold bsz
    omega
  congr 1
  apply Finset.ext
  intro v
  rw [Finset.mem_filter, Finset.mem_filter, Finset.mem_range, Finset.mem_range]
  constructor
  · rintro ⟨hvB, i, hi, he⟩
    have : lget lab i < n := hlt i (Finset.mem_range.mp hi)
    exact ⟨by omega, i, hi, he⟩
  · rintro ⟨hvn, hex⟩
    exact ⟨by omega, hex⟩


theorem lpCount_lp_labels {m : CSCBinaryMatrix} (hv : ValidCSC m)
    (hsq : m.ncols ≤ m.nrows) :
    lpCount m.nrows (lp_labels m) = componentCount m := by
  have hlen := lp_labels_length m
  have hL := lp_labels_labelInv m
  have hlt : ∀ i, i < m.nrows → lget (lp_labels m) i < m.nrows := by
    intro i hi
    have := hL i (by omega)
    omega
  rw [lpCount_eq_card m.nrows (lp_labels m) hlt]
  unfold componentCount
  refine congrArg Finset.card (Finset.filter_congr ?_)
  intro v hvr
  have hvn : v < m.nrows := Finset.mem_range.mp hvr
  constructor
  · rintro ⟨i, hi, he⟩
    have hin : i < m.nrows := Finset.mem_range.mp hi
    rw [lp_labels_eq_compMin hv hsq hin] at he
    rw [← he]
    exact compMin_idem hv hsq hin
  · intro hfix
    refine ⟨v, hvr, ?_⟩
    rw [lp_labels_eq_compMin hv hsq hvn]
    exact hfix

theorem cc_label_propagation_count {m : CSCBinaryMatrix} (hv : ValidCSC m)
    (hsq : m.ncols ≤ m.nrows) :
    cc_label_propagation m true true = (componentCount m : Int) := by
  show ((lpCount m.nrows (lp_labels m) : Int)) = (componentCount m : Int)
  rw [lpCount_lp_labels hv hsq]

/-! ## Union–find: `find_compress` never writes, `findRoot` finds roots -/

theorem compressLoop_id :
    ∀ (fuel : Nat) (lab : List Nat) (x root : Nat),
      compressLoop fuel lab x root = lab := by
  intro fuel lab x root
  cases fuel with
  | zero => rfl
  | succ f =>
      show (if x = root then lab
        else if lget lab x = lget lab x then lab
        else compressLoop f (lset lab x root) (lget lab x) root) = lab
      by_cases hx : x = root
      · rw [if_pos hx]
      · rw [if_neg hx, if_pos rfl]

theorem find_compress_snd (lab : List Nat) (x : Nat) :
    (find_compress lab x).2 = lab :=
  compressLoop_id (x + 1) lab x _

theorem find_compress_fst (lab : List Nat) (x : Nat) :
    (find_compress lab x).1 = rootOf lab x := rfl

theorem lget_le_self {lab : List Nat} (hL : LabelInv lab) (x : Nat) :
    lget lab x ≤ x := by
  rcases Nat.lt_or_ge x lab.length with hx | hx
  · exact hL x hx
  · rw [lget_oob lab hx]
    omega

theorem findRoot_le {lab : List Nat} (hL : LabelInv lab) :
    ∀ (fuel x : Nat), findRoot lab fuel x ≤ x := by
  intro fuel
  induction fuel with
  | zero => intro x; exact le_refl x
  | succ f ih =>
      intro x
      show (if lget lab x = x then x else findRoot lab f (lget lab x)) ≤ x
      by_cases hx : lget lab x = x
      · rw [if_pos hx]
      · rw [if_neg hx]
        exact le_trans (ih (lget lab x)) (lget_le_self hL x)

theorem findRoot_fix {lab : List Nat} (hL : LabelInv lab) :
    ∀ (fuel x : Nat), x < fuel →
      lget lab (findRoot lab fuel x) = findRoot lab fuel x := by
  intro fuel
  induction fuel with
  | zero => intro x hx; omega
  | succ f ih =>
      intro x hx
      show lget lab (if lget lab x = x then x else findRoot lab f (lget lab x))
        = (if lget lab x = x then x else findRoot lab f (lget lab x))
      by_cases hroot : lget lab x = x
      · rw [if_pos hroot, hroot]
      · rw [if_neg hroot]
        have hlt : lget lab x < x := lt_of_le_of_ne (lget_le_self hL x) hroot
        exact ih (lget lab x) (by omega)

theorem findRoot_fuel_stable {lab : List Nat} (hL : LabelInv lab) :
    ∀ (x f1 f2 : Nat), x < f1 → x < f2 →
      findRoot lab f1 x = findRoot lab f2 x := by
  intro x
  induction x using Nat.strong_induction_on with
  | _ x ih =>
      intro f1 f2 h1 h2
      match f1, f2 with
      | g1 + 1, g2 + 1 =>
          show (if lget lab x = x then x else findRoot lab g1 (lget lab x))
            = (if lget lab x = x then x else findRoot lab g2 (lget lab x))
          by_cases hroot : lget lab x = x
          · rw [if_pos hroot, if_pos hroot]
          · rw [if_neg hroot, if_neg hroot]
            have hlt : lget lab x < x := lt_of_le_of_ne (lget_le_self hL x) hroot
            exact ih (lget lab x) hlt g1 g2 (by omega) (by omega)

theorem rootOf_fix {lab : List Nat} (hL : LabelInv lab) (x : Nat) :
    lget lab (rootOf lab x) = rootOf lab x :=
  findRoot_fix hL (x + 1) x (by omega)

theorem rootOf_le {lab : List Nat} (hL : LabelInv lab) (x : Nat) :
    rootOf lab x ≤ x :=
  findRoot_le hL (x + 1) x

theorem rootOf_of_root {lab : List Nat} {x : Nat} (h : lget lab x = x) :
    rootOf lab x = x := by
  show (if lget lab x = x then x else findRoot lab x (lget lab x)) = x
  rw [if_pos h]

theorem rootOf_idem {lab : List Nat} (hL : LabelInv lab) (x : Nat) :
    rootOf lab (rootOf lab x) = rootOf lab x :=
  rootOf_of_root (rootOf_fix hL x)

theorem rootOf_step {lab : List Nat} (hL : LabelInv lab) {x : Nat}
    (h : lget lab x ≠ x) : rootOf lab x = rootOf lab (lget lab x) := by
  show (if lget lab x = x then x else findRoot lab x (lget lab x))
    = findRoot lab (lget lab x + 1) (lget lab x)
  rw [if_neg h]
  have hlt : lget lab x < x := lt_of_le_of_ne (lget_le_self hL x) h
  exact findRoot_fuel_stable hL (lget lab x) x (lget lab x + 1) hlt (by omega)

theorem rootOf_connected {m : CSCBinaryMatrix} {lab : List Nat}
    (hC : ConnInv m lab) (hL : LabelInv lab) :
    ∀ (x : Nat), x < lab.length → Connected m x (rootOf lab x) := by
  intro x
  induction x using Nat.strong_induction_on with
  | _ x ih =>
      intro hx
      by_cases hroot : lget lab x = x
      · rw [rootOf_of_root hroot]
        exact connected_refl m x
      · rw [rootOf_step hL hroot]
        have hlt : lget lab x < x := lt_of_le_of_ne (lget_le_self hL x) hroot
        exact connected_trans (hC x hx) (ih (lget lab x) hlt (by omega))

theorem rootOf_eq_self_iff {lab : List Nat} (hL : LabelInv lab) (x : Nat) :
    (rootOf lab x = x ↔ lget lab x = x) := by
  constructor
  · intro h
    by_contra hno
    have hstep := rootOf_step hL hno
    have hle := rootOf_le hL (lget lab x)
    have hlt : lget lab x < x := lt_of_le_of_ne (lget_le_self hL x) hno
    omega
  · exact rootOf_of_root


/-! ## Union–find: the sequential effect of `union_rem` -/

theorem unionRemGo_succ (r : Nat) (lab : List Nat) (a b : Nat) :
    unionRemGo (r + 1) lab a b =
      if (find_compress lab a).1 = (find_compress (find_compress lab a).2 b).1 then
        (find_compress (find_compress lab a).2 b).2
      else if lget (find_compress (find_compress lab a).2 b).2
              (max (find_compress lab a).1 (find_compress (find_compress lab a).2 b).1)
            = max (find_compress lab a).1 (find_compress (find_compress lab a).2 b).1 then
        lset (find_compress (find_compress lab a).2 b).2
          (max (find_compress lab a).1 (find_compress (find_compress lab a).2 b).1)
          (min (find_compress lab a).1 (find_compress (find_compress lab a).2 b).1)
      else
        unionRemGo r (find_compress (find_compress lab a).2 b).2
          (min (find_compress lab a).1 (find_compress (find_compress lab a).2 b).1)
          (lget (find_compress (find_compress lab a).2 b).2
            (max (find_compress lab a).1 (find_compress (find_compress lab a).2 b).1)) := rfl

theorem union_rem_eq {lab : List Nat} (hL : LabelInv lab) (a b : Nat) :
    union_rem lab a b =
      if rootOf lab a = rootOf lab b then lab
      else lset lab (max (rootOf lab a) (rootOf lab b))
        (min (rootOf lab a) (rootOf lab b)) := by
  have h10 : union_rem lab a b = unionRemGo (9 + 1) lab a b := rfl
  rw [h10, unionRemGo_succ, find_compress_snd lab a, find_compress_snd lab b,
    find_compress_fst lab a, find_compress_fst lab b]
  by_cases he : rootOf lab a = rootOf lab b
  · rw [if_pos he, if_pos he]
  · rw [if_neg he, if_neg he]
    have hroot : lget lab (max (rootOf lab a) (rootOf lab b))
        = max (rootOf lab a) (rootOf lab b) := by
      rcases max_choice (rootOf lab a) (rootOf lab b) with hm | hm <;>
        rw [hm] <;> exact rootOf_fix hL _
    rw [if_pos hroot]

theorem labelInv_link {lab : List Nat} (hL : LabelInv lab) {a2 b2 : Nat}
    (hab : a2 < b2) : LabelInv (lset lab b2 a2) := by
  intro v hv
  rw [length_lset] at hv
  by_cases hvb : b2 = v
  · subst hvb
    rw [lget_set_self _ _ hv]
    omega
  · rw [lget_set_ne _ _ hvb]
    exact hL v hv

theorem rootOf_link {lab : List Nat} (hL : LabelInv lab) {a2 b2 : Nat}
    (ha : lget lab a2 = a2) (hb : lget lab b2 = b2) (hab : a2 < b2)
    (hblen : b2 < lab.length) :
    ∀ x, rootOf (lset lab b2 a2) x
      = if rootOf lab x = b2 then a2 else rootOf lab x := by
  have hL2 : LabelInv (lset lab b2 a2) := labelInv_link hL hab
  intro x
  induction x using Nat.strong_induction_on with
  | _ x ih =>
      by_cases hxb : x = b2
      · have hget : lget (lset lab b2 a2) x = a2 := by
          rw [hxb]
          exact lget_set_self _ _ hblen
        have hne : lget (lset lab b2 a2) x ≠ x := by omega
        rw [rootOf_step hL2 hne, hget]
        have hga : lget (lset lab b2 a2) a2 = a2 := by
          rw [lget_set_ne _ _ (show b2 ≠ a2 by omega)]
          exact ha
        rw [rootOf_of_root hga, hxb, rootOf_of_root hb, if_pos rfl]
      · have hget : lget (lset lab b2 a2) x = lget lab x :=
          lget_set_ne _ _ (fun he => hxb he.symm)
        by_cases hroot : lget lab x = x
        · rw [rootOf_of_root (hget.trans hroot), rootOf_of_root hroot, if_neg hxb]
        · have hlt : lget lab x < x := lt_of_le_of_ne (lget_le_self hL x) hroot
          have hne2 : lget (lset lab b2 a2) x ≠ x := by
            rw [hget]
            exact hroot
          rw [rootOf_step hL2 hne2, hget, rootOf_step hL hroot]
          exact ih (lget lab x) hlt

theorem union_rem_labelInv {lab : List Nat} (hL : LabelInv lab) (a b : Nat) :
    LabelInv (union_rem lab a b) := by
  rw [union_rem_eq hL]
  by_cases he : rootOf lab a = rootOf lab b
  · rw [if_pos he]
    exact hL
  · rw [if_neg he]
    have hmm : min (rootOf lab a) (rootOf lab b) < max (rootOf lab a) (rootOf lab b) := by
      omega
    exact labelInv_link hL hmm

theorem union_rem_length {lab : List Nat} (hL : LabelInv lab) (a b : Nat) :
    (union_rem lab a b).length = lab.length := by
  rw [union_rem_eq hL]
  by_cases he : rootOf lab a = rootOf lab b
  · rw [if_pos he]
  · rw [if_neg he]
    exact List.length_set lab _ _

theorem union_rem_strict {lab : List Nat} (hL : LabelInv lab) (a b i : Nat)
    (h : lget (union_rem lab a b) i ≠ lget lab i) :
    lget (union_rem lab a b) i < i := by
  rw [union_rem_eq hL] at h ⊢
  by_cases he : rootOf lab a = rootOf lab b
  · rw [if_pos he] at h
    exact absurd rfl h
  · rw [if_neg he] at h ⊢
    by_cases hi : max (rootOf lab a) (rootOf lab b) = i
    · rcases Nat.lt_or_ge i lab.length with hlen | hlen
      · rw [← hi] at hlen ⊢
        rw [lget_set_self _ _ hlen]
        omega
      · rw [lset_oob _ _ (by omega : lab.length ≤ max (rootOf lab a) (rootOf lab b))] at h
        exact absurd rfl h
    · rw [lget_set_ne _ _ hi] at h
      exact absurd rfl h

theorem union_rem_rootOf {lab : List Nat} (hL : LabelInv lab) {a b : Nat}
    (halen : a < lab.length) (hblen : b < lab.length) (x : Nat) :
    rootOf (union_rem lab a b) x =
      if rootOf lab a = rootOf lab b then rootOf lab x
      else if rootOf lab x = max (rootOf lab a) (rootOf lab b)
           then min (rootOf lab a) (rootOf lab b) else rootOf lab x := by
  rw [union_rem_eq hL]
  by_cases he : rootOf lab a = rootOf lab b
  · rw [if_pos he, if_pos he]
  · rw [if_neg he, if_neg he]
    have hmaxroot : lget lab (max (rootOf lab a) (rootOf lab b))
        = max (rootOf lab a) (rootOf lab b) := by
      rcases max_choice (rootOf lab a) (rootOf lab b) with hm | hm <;>
        rw [hm] <;> exact rootOf_fix hL _
    have hminroot : lget lab (min (rootOf lab a) (rootOf lab b))
        = min (rootOf lab a) (rootOf lab b) := by
      rcases min_choice (rootOf lab a) (rootOf lab b) with hm | hm <;>
        rw [hm] <;> exact rootOf_fix hL _
    have hmaxlen : max (rootOf lab a) (rootOf lab b) < lab.length := by
      have h1 := rootOf_le hL a
      have h2 := rootOf_le hL b
      omega
    have hminmax : min (rootOf lab a) (rootOf lab b)
        < max (rootOf lab a) (rootOf lab b) := by omega
    exact rootOf_link hL hminroot hmaxroot hminmax hmaxlen x

theorem union_rem_pres_eq {lab : List Nat} (hL : LabelInv lab) {a b x y : Nat}
    (halen : a < lab.length) (hblen : b < lab.length)
    (h : rootOf lab x = rootOf lab y) :
    rootOf (union_rem lab a b) x = rootOf (union_rem lab a b) y := by
  rw [union_rem_rootOf hL halen hblen x, union_rem_rootOf hL halen hblen y, h]

theorem union_rem_join {lab : List Nat} (hL : LabelInv lab) {a b : Nat}
    (halen : a < lab.length) (hblen : b < lab.length) :
    rootOf (union_rem lab a b) a = rootOf (union_rem lab a b) b := by
  rw [union_rem_rootOf hL halen hblen a, union_rem_rootOf hL halen hblen b]
  split_ifs <;> omega

theorem union_rem_connInv {m : CSCBinaryMatrix} {lab : List Nat}
    (hC : ConnInv m lab) (hL : LabelInv lab) {a b : Nat}
    (halen : a < lab.length) (hblen : b < lab.length)
    (hconn : Connected m a b) : ConnInv m (union_rem lab a b) := by
  rw [union_rem_eq hL]
  by_cases he : rootOf lab a = rootOf lab b
  · rw [if_pos he]
    exact hC
  · rw [if_neg he]
    intro v hv
    rw [length_lset] at hv
    have hrab : Connected m (rootOf lab a) (rootOf lab b) :=
      connected_trans (connected_symm (rootOf_connected hC hL a halen))
        (connected_trans hconn (rootOf_connected hC hL b hblen))
    by_cases hvm : max (rootOf lab a) (rootOf lab b) = v
    · rw [← hvm, lget_set_self _ _
        (show max (rootOf lab a) (rootOf lab b) < lab.length by omega)]
      rcases max_choice (rootOf lab a) (rootOf lab b) with hm | hm
      · have hm2 : min (rootOf lab a) (rootOf lab b) = rootOf lab b := by omega
        rw [hm, hm2]
        exact hrab
      · have hm2 : min (rootOf lab a) (rootOf lab b) = rootOf lab a := by omega
        rw [hm, hm2]
        exact connected_symm hrab
    · rw [lget_set_ne _ _ hvm]
      exact hC v hv


/-! ## Union–find: the union phase and root counting -/

theorem uf_fold_facts {m : CSCBinaryMatrix} :
    ∀ (es : List (Nat × Nat)) (lab : List Nat),
      lab.length = m.nrows →
      (∀ p ∈ es, p.1 < m.nrows ∧ p.2 < m.nrows ∧ Adj m p.1 p.2) →
      LabelInv lab → ConnInv m lab →
      LabelInv (es.foldl (ufStep m.nrows) lab) ∧
      ConnInv m (es.foldl (ufStep m.nrows) lab) ∧
      (es.foldl (ufStep m.nrows) lab).length = m.nrows := by
  intro es
  induction es with
  | nil => intro lab hlen _ hL hC; exact ⟨hL, hC, hlen⟩
  | cons p es ih =>
      intro lab hlen hb hL hC
      rw [List.foldl_cons]
      have hp := hb p (List.mem_cons_self p es)
      have hstep : ufStep m.nrows lab p = union_rem lab p.1 p.2 := by
        unfold ufStep
        rw [if_pos hp.1]
      rw [hstep]
      have h1len : p.1 < lab.length := by omega
      have h2len : p.2 < lab.length := by omega
      refine ih _ ?_ (fun q hq => hb q (List.mem_cons_of_mem p hq))
        (union_rem_labelInv hL p.1 p.2)
        (union_rem_connInv hC hL h1len h2len (connected_of_adj hp.2.2))
      rw [union_rem_length hL]
      exact hlen

theorem uf_fold_pres_eq {m : CSCBinaryMatrix} :
    ∀ (es : List (Nat × Nat)) (lab : List Nat),
      lab.length = m.nrows →
      (∀ p ∈ es, p.1 < m.nrows ∧ p.2 < m.nrows ∧ Adj m p.1 p.2) →
      LabelInv lab → ConnInv m lab →
      ∀ x y, rootOf lab x = rootOf lab y →
        rootOf (es.foldl (ufStep m.nrows) lab) x
          = rootOf (es.foldl (ufStep m.nrows) lab) y := by
  intro es
  induction es with
  | nil => intro lab _ _ _ _ x y h; exact h
  | cons p es ih =>
      intro lab hlen hb hL hC x y h
      rw [List.foldl_cons]
      have hp := hb p (List.mem_cons_self p es)
      have hstep : ufStep m.nrows lab p = union_rem lab p.1 p.2 := by
        unfold ufStep
        rw [if_pos hp.1]
      rw [hstep]
      have h1len : p.1 < lab.length := by omega
      have h2len : p.2 < lab.length := by omega
      refine ih _ ?_ (fun q hq => hb q (List.mem_cons_of_mem p hq))
        (union_rem_labelInv hL p.1 p.2)
        (union_rem_connInv hC hL h1len h2len (connected_of_adj hp.2.2))
        x y (union_rem_pres_eq hL h1len h2len h)
      rw [union_rem_length hL]
      exact hlen

theorem uf_fold_done {m : CSCBinaryMatrix} :
    ∀ (es : List (Nat × Nat)) (lab : List Nat),
      lab.length = m.nrows →
      (∀ p ∈ es, p.1 < m.nrows ∧ p.2 < m.nrows ∧ Adj m p.1 p.2) →
      LabelInv lab → ConnInv m lab →
      ∀ p ∈ es, rootOf (es.foldl (ufStep m.nrows) lab) p.1
        = rootOf (es.foldl (ufStep m.nrows) lab) p.2 := by
  intro es
  induction es with
  | nil => intro lab _ _ _ _ p hp; simp at hp
  | cons q es ih =>
      intro lab hlen hb hL hC p hp
      rw [List.foldl_cons]
      have hq := hb q (List.mem_cons_self q es)
      have hstep : ufStep m.nrows lab q = union_rem lab q.1 q.2 := by
        unfold ufStep
        rw [if_pos hq.1]
      rw [hstep]
      have h1len : q.1 < lab.length := by omega
      have h2len : q.2 < lab.length := by omega
      have hL2 := union_rem_labelInv hL q.1 q.2
      have hC2 := union_rem_connInv hC hL h1len h2len (connected_of_adj hq.2.2)
      have hlen2 : (union_rem lab q.1 q.2).length = m.nrows := by
        rw [union_rem_length hL]
        exact hlen
      have hbound2 := fun p2 hp2 => hb p2 (List.mem_cons_of_mem q hp2)
      rcases List.mem_cons.mp hp with rfl | hpes
      · exact uf_fold_pres_eq es _ hlen2 hbound2 hL2 hC2 p.1 p.2
          (union_rem_join hL h1len h2len)
      · exact ih _ hlen2 hbound2 hL2 hC2 p hpes

theorem ufFlatten_id : ∀ (n : Nat) (lab : List Nat), ufFlatten n lab = lab := by
  intro n lab
  unfold ufFlatten
  have hgen : ∀ (l : List Nat) (lab2 : List Nat),
      l.foldl (fun l2 i => (find_compress l2 i).2) lab2 = lab2 := by
    intro l
    induction l with
    | nil => intro lab2; rfl
    | cons i l ih =>
        intro lab2
        rw [List.foldl_cons, find_compress_snd]
        exact ih lab2
  exact hgen (List.range n) lab

theorem allEdges_uf_bounds {m : CSCBinaryMatrix} (hv : ValidCSC m)
    (hsq : m.ncols ≤ m.nrows) :
    ∀ p ∈ allEdges m, p.1 < m.nrows ∧ p.2 < m.nrows ∧ Adj m p.1 p.2 := by
  intro p hp
  have h := allEdges_bounds hv hsq p hp
  exact ⟨h.1, h.2.1, adj_symm h.2.2⟩

theorem uf_labels_facts {m : CSCBinaryMatrix} (hv : ValidCSC m)
    (hsq : m.ncols ≤ m.nrows) :
    LabelInv (uf_labels m) ∧ ConnInv m (uf_labels m) ∧
      (uf_labels m).length = m.nrows := by
  unfold uf_labels
  rw [ufFlatten_id]
  exact uf_fold_facts (allEdges m) (ufInit m.nrows)
    (List.length_range m.nrows) (allEdges_uf_bounds hv hsq)
    (labelInv_range m.nrows) (connInv_range m m.nrows)

theorem uf_labels_done {m : CSCBinaryMatrix} (hv : ValidCSC m)
    (hsq : m.ncols ≤ m.nrows) :
    ∀ p ∈ allEdges m, rootOf (uf_labels m) p.1 = rootOf (uf_labels m) p.2 := by
  have h := uf_fold_done (allEdges m) (ufInit m.nrows)
    (List.length_range m.nrows) (allEdges_uf_bounds hv hsq)
    (labelInv_range m.nrows) (connInv_range m m.nrows)
  unfold uf_labels
  rw [ufFlatten_id]
  exact h

theorem uf_labels_complete {m : CSCBinaryMatrix} (hv : ValidCSC m)
    (hsq : m.ncols ≤ m.nrows) {u v : Nat} (h : Connected m u v) :
    rootOf (uf_labels m) u = rootOf (uf_labels m) v := by
  induction h with
  | refl => rfl
  | tail huw hadj ih =>
      refine ih.trans ?_
      rcases hadj with he | he
      · exact uf_labels_done hv hsq _ he
      · exact (uf_labels_done hv hsq _ he).symm

theorem length_filter_range (n : Nat) (p : Nat → Prop) [DecidablePred p] :
    ((List.range n).filter (fun i => decide (p i))).length
      = ((Finset.range n).filter p).card := by
  induction n with
  | zero => simp
  | succ k ih =>
      rw [List.range_succ, List.filter_append, List.length_append,
        Finset.range_succ, Finset.filter_insert]
      by_cases hp : p k
      · rw [if_pos hp, Finset.card_insert_of_not_mem (by simp)]
        simp [hp, ih]
      · rw [if_neg hp]
        simp [hp, ih]

theorem repFun_card_eq {m : CSCBinaryMatrix} (f g : Nat → Nat)
    (hf1 : ∀ v, v < m.nrows → Connected m v (f v))
    (hf2 : ∀ u v, u < m.nrows → v < m.nrows → Connected m u v → f u = f v)
    (hf3 : ∀ v, v < m.nrows → f v < m.nrows ∧ f (f v) = f v)
    (hg1 : ∀ v, v < m.nrows → Connected m v (g v))
    (hg2 : ∀ u v, u < m.nrows → v < m.nrows → Connected m u v → g u = g v)
    (hg3 : ∀ v, v < m.nrows → g v < m.nrows ∧ g (g v) = g v) :
    ((Finset.range m.nrows).filter (fun v => f v = v)).card
      = ((Finset.range m.nrows).filter (fun v => g v = v)).card := by
  refine Finset.card_bij (fun v _ => g v) ?_ ?_ ?_
  · intro v hv
    have hvn : v < m.nrows := Finset.mem_range.mp (Finset.mem_filter.mp hv).1
    exact Finset.mem_filter.mpr
      ⟨Finset.mem_range.mpr (hg3 v hvn).1, (hg3 v hvn).2⟩
  · intro v1 hv1 v2 hv2 heq
    have h1 := Finset.mem_filter.mp hv1
    have h2 := Finset.mem_filter.mp hv2
    have h1n : v1 < m.nrows := Finset.mem_range.mp h1.1
    have h2n : v2 < m.nrows := Finset.mem_range.mp h2.1
    have heq2 : g v1 = g v2 := heq
    have hconn : Connected m v1 v2 :=
      connected_trans (hg1 v1 h1n) (heq2 ▸ connected_symm (hg1 v2 h2n))
    have := hf2 v1 v2 h1n h2n hconn
    rw [h1.2, h2.2] at this
    exact this
  · intro w hw
    have h := Finset.mem_filter.mp hw
    have hwn : w < m.nrows := Finset.mem_range.mp h.1
    refine ⟨f w, Finset.mem_filter.mpr
      ⟨Finset.mem_range.mpr (hf3 w hwn).1, (hf3 w hwn).2⟩, ?_⟩
    have hgf : g (f w) = g w :=
      hg2 (f w) w (hf3 w hwn).1 hwn (connected_symm (hf1 w hwn))
    show g (f w) = w
    rw [hgf, h.2]

theorem ufCount_eq_componentCount {m : CSCBinaryMatrix} (hv : ValidCSC m)
    (hsq : m.ncols ≤ m.nrows) :
    ufCount m.nrows (uf_labels m) = componentCount m := by
  rcases uf_labels_facts hv hsq with ⟨hL, hC, hlen⟩
  unfold ufCount componentCount
  rw [length_filter_range m.nrows (fun i => lget (uf_labels m) i = i)]
  have hiff : ∀ v ∈ Finset.range m.nrows,
      (lget (uf_labels m) v = v ↔ rootOf (uf_labels m) v = v) := by
    intro v _
    exact (rootOf_eq_self_iff hL v).symm
  rw [Finset.filter_congr hiff]
  refine repFun_card_eq (rootOf (uf_labels m)) (compMin m) ?_ ?_ ?_ ?_ ?_ ?_
  · intro v hvn
    exact rootOf_connected hC hL v (by omega)
  · intro u v _ _ h
    exact uf_labels_complete hv hsq h
  · intro v hvn
    have h1 := rootOf_le hL v
    exact ⟨by omega, rootOf_idem hL v⟩
  · intro v _
    exact compMin_connected m v
  · intro u v hu hv2 h
    exact compMin_congr hv hsq hu hv2 h
  · intro v hvn
    exact ⟨compMin_lt hv hsq hvn, compMin_idem hv hsq hvn⟩

theorem cc_union_find_count {m : CSCBinaryMatrix} (hv : ValidCSC m)
    (hsq : m.ncols ≤ m.nrows) :
    cc_union_find m true = (componentCount m : Int) := by
  unfold cc_union_find
  by_cases h0 : m.nrows = 0
  · rw [if_pos h0]
    unfold componentCount
    rw [h0]
    simp
  · rw [if_neg h0]
    show ((ufCount m.nrows (uf_labels m) : Nat) : Int) = _
    rw [ufCount_eq_componentCount hv hsq]


/-! ## The BFS reference: option-list access and the neighbour scan -/

theorem oget_set_self (l : List (Option Nat)) {i : Nat} (v : Option Nat)
    (h : i < l.length) : (l.set i v).getD i (some 0) = v := by
  simp [List.getD, List.getElem?_set_self, h]

theorem oget_set_ne (l : List (Option Nat)) {i j : Nat} (v : Option Nat)
    (h : i ≠ j) : (l.set i v).getD j (some 0) = l.getD j (some 0) := by
  simp [List.getD, List.getElem?_set_ne h]

theorem oget_oob (l : List (Option Nat)) {i : Nat} (h : l.length ≤ i) :
    l.getD i (some 0) = some 0 := by
  simp [List.getD, List.getElem?_eq_none h]

theorem oget_none_lt {l : List (Option Nat)} {i : Nat}
    (h : l.getD i (some 0) = none) : i < l.length := by
  by_contra hno
  rw [oget_oob l (by omega)] at h
  exact Option.noConfusion h

theorem count_none_set {l : List (Option Nat)} :
    ∀ {i : Nat}, l.getD i (some 0) = none → ∀ (w : Nat),
      (l.set i (some w)).count none + 1 = l.count none := by
  induction l with
  | nil =>
      intro i h w
      exact absurd h (by simp [List.getD])
  | cons a t ih =>
      intro i h w
      cases i with
      | zero =>
          have ha : a = none := by simpa [List.getD] using h
          subst ha
          simp [List.count_cons]
      | succ j =>
          have hj : t.getD j (some 0) = none := by simpa [List.getD] using h
          have := ih hj w
          simp only [List.set_cons_succ, List.count_cons] at *
          omega

theorem count_none_le_length (l : List (Option Nat)) :
    l.count none ≤ l.length :=
  List.count_le_length none l

theorem bfsScan_eq_hit {id : Nat} {s : List (Option Nat) × List Nat} {nb : Nat}
    (h : s.1.getD nb (some 0) = none) :
    bfsScan id s nb = (s.1.set nb (some id), s.2 ++ [nb]) := by
  unfold bfsScan
  rw [if_pos h]

theorem bfsScan_eq_miss {id : Nat} {s : List (Option Nat) × List Nat} {nb : Nat}
    (h : ¬ s.1.getD nb (some 0) = none) : bfsScan id s nb = s := by
  unfold bfsScan
  rw [if_neg h]

theorem bfsScan_mono {id : Nat} {s : List (Option Nat) × List Nat} {nb w : Nat}
    (h : labeledAt s.1 w) : labeledAt (bfsScan id s nb).1 w := by
  by_cases hh : s.1.getD nb (some 0) = none
  · rw [bfsScan_eq_hit hh]
    by_cases hw : nb = w
    · subst hw
      exact absurd hh h
    · unfold labeledAt
      rw [oget_set_ne _ _ hw]
      exact h
  · rw [bfsScan_eq_miss hh]
    exact h

theorem scan_length (id : Nat) :
    ∀ (cols : List Nat) (labels : List (Option Nat)) (rest : List Nat),
      ((cols.foldl (bfsScan id) (labels, rest)).1).length = labels.length := by
  intro cols
  induction cols with
  | nil => intro labels rest; rfl
  | cons nb cols ih =>
      intro labels rest
      rw [List.foldl_cons]
      by_cases hh : labels.getD nb (some 0) = none
      · rw [bfsScan_eq_hit (s := (labels, rest)) hh]
        rw [ih]
        exact List.length_set labels nb _
      · rw [bfsScan_eq_miss (s := (labels, rest)) hh]
        exact ih labels rest

theorem scan_measure (id : Nat) :
    ∀ (cols : List Nat) (labels : List (Option Nat)) (rest : List Nat),
      ((cols.foldl (bfsScan id) (labels, rest)).2).length
          + ((cols.foldl (bfsScan id) (labels, rest)).1).count none
        = rest.length + labels.count none := by
  intro cols
  induction cols with
  | nil => intro labels rest; rfl
  | cons nb cols ih =>
      intro labels rest
      rw [List.foldl_cons]
      by_cases hh : labels.getD nb (some 0) = none
      · rw [bfsScan_eq_hit (s := (labels, rest)) hh]
        rw [ih]
        have := count_none_set hh id
        rw [List.length_append]
        simp only [List.length_cons, List.length_nil]
        omega
      · rw [bfsScan_eq_miss (s := (labels, rest)) hh]
        exact ih labels rest

theorem scan_mono (id : Nat) :
    ∀ (cols : List Nat) (labels : List (Option Nat)) (rest : List Nat) (w : Nat),
      labeledAt labels w → labeledAt ((cols.foldl (bfsScan id) (labels, rest)).1) w := by
  intro cols
  induction cols with
  | nil => intro labels rest w h; exact h
  | cons nb cols ih =>
      intro labels rest w h
      rw [List.foldl_cons]
      have hstep := @bfsScan_mono id (labels, rest) nb _ h
      rcases hs : bfsScan id (labels, rest) nb with ⟨labels2, rest2⟩
      rw [hs] at hstep
      exact ih labels2 rest2 w hstep

theorem scan_new_sub (id : Nat) :
    ∀ (cols : List Nat) (labels : List (Option Nat)) (rest : List Nat) (w : Nat),
      labeledAt ((cols.foldl (bfsScan id) (labels, rest)).1) w →
        labeledAt labels w ∨ w ∈ cols := by
  intro cols
  induction cols with
  | nil => intro labels rest w h; exact Or.inl h
  | cons nb cols ih =>
      intro labels rest w h
      rw [List.foldl_cons] at h
      by_cases hh : labels.getD nb (some 0) = none
      · rw [bfsScan_eq_hit (s := (labels, rest)) hh] at h
        rcases ih _ _ w h with h2 | h2
        · by_cases hw : nb = w
          · exact Or.inr (hw ▸ List.mem_cons_self nb cols)
          · left
            unfold labeledAt at h2 ⊢
            rwa [oget_set_ne _ _ hw] at h2
        · exact Or.inr (List.mem_cons_of_mem nb h2)
      · rw [bfsScan_eq_miss (s := (labels, rest)) hh] at h
        rcases ih _ _ w h with h2 | h2
        · exact Or.inl h2
        · exact Or.inr (List.mem_cons_of_mem nb h2)

theorem scan_outside (id : Nat) :
    ∀ (cols : List Nat) (labels : List (Option Nat)) (rest : List Nat) (w : Nat),
      ¬ w ∈ cols →
        ((cols.foldl (bfsScan id) (labels, rest)).1).getD w (some 0)
          = labels.getD w (some 0) := by
  intro cols
  induction cols with
  | nil => intro labels rest w _; rfl
  | cons nb cols ih =>
      intro labels rest w hw
      rw [List.foldl_cons]
      have hwnb : nb ≠ w := fun he => hw (he ▸ List.mem_cons_self nb cols)
      have hwcols : ¬ w ∈ cols := fun he => hw (List.mem_cons_of_mem nb he)
      by_cases hh : labels.getD nb (some 0) = none
      · rw [bfsScan_eq_hit (s := (labels, rest)) hh, ih _ _ w hwcols]
        exact oget_set_ne _ _ hwnb
      · rw [bfsScan_eq_miss (s := (labels, rest)) hh]
        exact ih _ _ w hwcols

theorem scan_cols_labeled (id : Nat) :
    ∀ (cols : List Nat) (labels : List (Option Nat)) (rest : List Nat),
      ∀ w ∈ cols, w < labels.length →
        labeledAt ((cols.foldl (bfsScan id) (labels, rest)).1) w := by
  intro cols
  induction cols with
  | nil => intro labels rest w hw; simp at hw
  | cons nb cols ih =>
      intro labels rest w hw hwlen
      rw [List.foldl_cons]
      rcases List.mem_cons.mp hw with rfl | hw2
      · by_cases hh : labels.getD w (some 0) = none
        · rw [bfsScan_eq_hit (s := (labels, rest)) hh]
          refine scan_mono id cols _ _ w ?_
          unfold labeledAt
          rw [oget_set_self _ _ hwlen]
          simp
        · rw [bfsScan_eq_miss (s := (labels, rest)) hh]
          exact scan_mono id cols _ _ w hh
      · by_cases hh : labels.getD nb (some 0) = none
        · rw [bfsScan_eq_hit (s := (labels, rest)) hh]
          refine ih _ _ w hw2 ?_
          rw [List.length_set]
          exact hwlen
        · rw [bfsScan_eq_miss (s := (labels, rest)) hh]
          exact ih _ _ w hw2 hwlen

theorem scan_queue_sub (id : Nat) :
    ∀ (cols : List Nat) (labels : List (Option Nat)) (rest : List Nat) (q : Nat),
      q ∈ (cols.foldl (bfsScan id) (labels, rest)).2 → q ∈ rest ∨ q ∈ cols := by
  intro cols
  induction cols with
  | nil => intro labels rest q h; exact Or.inl h
  | cons nb cols ih =>
      intro labels rest q h
      rw [List.foldl_cons] at h
      by_cases hh : labels.getD nb (some 0) = none
      · rw [bfsScan_eq_hit (s := (labels, rest)) hh] at h
        rcases ih _ _ q h with h2 | h2
        · rcases List.mem_append.mp h2 with h3 | h3
          · exact Or.inl h3
          · have : q = nb := by simpa using h3
            exact Or.inr (this ▸ List.mem_cons_self nb cols)
        · exact Or.inr (List.mem_cons_of_mem nb h2)
      · rw [bfsScan_eq_miss (s := (labels, rest)) hh] at h
        rcases ih _ _ q h with h2 | h2
        · exact Or.inl h2
        · exact Or.inr (List.mem_cons_of_mem nb h2)

theorem scan_queue_mono (id : Nat) :
    ∀ (cols : List Nat) (labels : List (Option Nat)) (rest : List Nat) (q : Nat),
      q ∈ rest → q ∈ (cols.foldl (bfsScan id) (labels, rest)).2 := by
  intro cols
  induction cols with
  | nil => intro labels rest q h; exact h
  | cons nb cols ih =>
      intro labels rest q h
      rw [List.foldl_cons]
      by_cases hh : labels.getD nb (some 0) = none
      · rw [bfsScan_eq_hit (s := (labels, rest)) hh]
        exact ih _ _ q (List.mem_append.mpr (Or.inl h))
      · rw [bfsScan_eq_miss (s := (labels, rest)) hh]
        exact ih _ _ q h

theorem scan_queue_labeled (id : Nat) :
    ∀ (cols : List Nat) (labels : List (Option Nat)) (rest : List Nat),
      (∀ q ∈ rest, labeledAt labels q) →
      ∀ q ∈ (cols.foldl (bfsScan id) (labels, rest)).2,
        labeledAt ((cols.foldl (bfsScan id) (labels, rest)).1) q := by
  intro cols
  induction cols with
  | nil => intro labels rest h q hq; exact h q hq
  | cons nb cols ih =>
      intro labels rest h q hq
      rw [List.foldl_cons] at hq ⊢
      by_cases hh : labels.getD nb (some 0) = none
      · rw [bfsScan_eq_hit (s := (labels, rest)) hh] at hq ⊢
        refine ih _ _ ?_ q hq
        intro q2 hq2
        rcases List.mem_append.mp hq2 with h3 | h3
        · have := h q2 h3
          unfold labeledAt at this ⊢
          by_cases hqnb : nb = q2
          · subst hqnb
            exact absurd hh this
          · rwa [oget_set_ne _ _ hqnb]
        · have hq2nb : q2 = nb := by simpa using h3
          subst hq2nb
          unfold labeledAt
          rw [oget_set_self _ _ (oget_none_lt hh)]
          simp
      · rw [bfsScan_eq_miss (s := (labels, rest)) hh] at hq ⊢
        exact ih _ _ h q hq

theorem scan_enqueued (id : Nat) :
    ∀ (cols : List Nat) (labels : List (Option Nat)) (rest : List Nat) (w : Nat),
      ¬ labeledAt labels w →
      labeledAt ((cols.foldl (bfsScan id) (labels, rest)).1) w →
        w ∈ (cols.foldl (bfsScan id) (labels, rest)).2 := by
  intro cols
  induction cols with
  | nil => intro labels rest w h1 h2; exact absurd h2 h1
  | cons nb cols ih =>
      intro labels rest w h1 h2
      rw [List.foldl_cons] at h2 ⊢
      by_cases hh : labels.getD nb (some 0) = none
      · rw [bfsScan_eq_hit (s := (labels, rest)) hh] at h2 ⊢
        by_cases hwnb : nb = w
        · subst hwnb
          exact scan_queue_mono id cols _ _ nb
            (List.mem_append.mpr (Or.inr (List.mem_singleton.mpr rfl)))
        · refine ih _ _ w ?_ h2
          unfold labeledAt at h1 ⊢
          rwa [oget_set_ne _ _ hwnb]
      · rw [bfsScan_eq_miss (s := (labels, rest)) hh] at h2 ⊢
        exact ih _ _ w h1 h2


/-! ## The BFS reference: the queue loop labels exactly one component -/

theorem bfs_loop_zero (m : CSCBinaryMatrix) (id : Nat) (labels : List (Option Nat))
    (queue : List Nat) : bfs_loop m id 0 labels queue = labels := rfl

theorem bfs_loop_succ_nil (m : CSCBinaryMatrix) (id fuel : Nat)
    (labels : List (Option Nat)) : bfs_loop m id (fuel + 1) labels [] = labels := rfl

theorem bfs_loop_succ_cons (m : CSCBinaryMatrix) (id fuel : Nat)
    (labels : List (Option Nat)) (cur : Nat) (rest : List Nat) :
    bfs_loop m id (fuel + 1) labels (cur :: rest) =
      bfs_loop m id fuel ((colRows m cur).foldl (bfsScan id) (labels, rest)).1
        ((colRows m cur).foldl (bfsScan id) (labels, rest)).2 := rfl

theorem reach_subset_range {m : CSCBinaryMatrix} (hv : ValidCSC m)
    (hsq : m.ncols ≤ m.nrows) {v : Nat} (hvn : v < m.nrows) :
    reach m v ⊆ Finset.range m.nrows :=
  iterate_subset_range hv hsq hvn m.nrows

theorem colRows_closed {m : CSCBinaryMatrix} (hv : ValidCSC m)
    (hrc : m.nrows = m.ncols) {start cur nb : Nat} (hstart : start < m.nrows)
    (hcur : cur ∈ reach m start) (hnb : nb ∈ colRows m cur) :
    nb ∈ reach m start := by
  have hsq : m.ncols ≤ m.nrows := le_of_eq hrc.symm
  have hc : cur < m.ncols := by
    have h1 := Finset.mem_range.mp (reach_subset_range hv hsq hstart hcur)
    omega
  exact reach_closed hv hsq hstart hcur
    (Or.inl (mem_allEdges.mpr ⟨hc, hnb⟩))

theorem bfs_closed_complete {m : CSCBinaryMatrix} (hv : ValidCSC m)
    (hsym : SymmPattern m) {start : Nat} (hstart : start < m.nrows)
    (labels : List (Option Nat)) (hstartlab : labeledAt labels start)
    (hclosed : ∀ u ∈ reach m start, labeledAt labels u →
      ∀ nb ∈ colRows m u, labeledAt labels nb) :
    ∀ w ∈ reach m start, labeledAt labels w := by
  have hsq : m.ncols ≤ m.nrows := le_of_eq hsym.1.symm
  intro w hw
  have hconn := reach_sound hw
  clear hw
  induction hconn with
  | refl => exact hstartlab
  | @tail b c hc hadj ih =>
      have hbR : b ∈ reach m start := reach_complete hv hsq hstart hc
      have hcb : (c, b) ∈ allEdges m := by
        rcases hadj with he | he
        · exact hsym.2 (b, c) he
        · exact he
      exact hclosed b hbR ih c (mem_allEdges.mp hcb).2


theorem bfs_loop_spec {m : CSCBinaryMatrix} (hv : ValidCSC m) (hsym : SymmPattern m)
    {start : Nat} (hstart : start < m.nrows) (id : Nat) :
    ∀ (fuel : Nat) (labels : List (Option Nat)) (queue : List Nat),
      labels.length = m.ncols →
      queue.length + labels.count none ≤ fuel →
      labeledAt labels start →
      (∀ q ∈ queue, q ∈ reach m start ∧ labeledAt labels q) →
      (∀ u, u ∈ reach m start → labeledAt labels u → ¬ u ∈ queue →
        ∀ nb ∈ colRows m u, labeledAt labels nb) →
      (bfs_loop m id fuel labels queue).length = m.ncols ∧
      (∀ w ∈ reach m start, labeledAt (bfs_loop m id fuel labels queue) w) ∧
      (∀ w, ¬ w ∈ reach m start →
        (bfs_loop m id fuel labels queue).getD w (some 0) = labels.getD w (some 0)) ∧
      (∀ w, labeledAt (bfs_loop m id fuel labels queue) w →
        labeledAt labels w ∨ w ∈ reach m start) := by
  have hrc : m.nrows = m.ncols := hsym.1
  have hsq : m.ncols ≤ m.nrows := le_of_eq hrc.symm
  intro fuel
  induction fuel with
  | zero =>
      intro labels queue hlen hmeas hsl hq hcl
      have hqe : queue = [] := List.length_eq_zero.mp (by omega)
      subst hqe
      rw [bfs_loop_zero]
      refine ⟨hlen, ?_, fun w _ => rfl, fun w h => Or.inl h⟩
      exact bfs_closed_complete hv hsym hstart labels hsl
        (fun u hu hlab => hcl u hu hlab (by simp))
  | succ f ih =>
      intro labels queue hlen hmeas hsl hq hcl
      cases queue with
      | nil =>
          rw [bfs_loop_succ_nil]
          refine ⟨hlen, ?_, fun w _ => rfl, fun w h => Or.inl h⟩
          exact bfs_closed_complete hv hsym hstart labels hsl
            (fun u hu hlab => hcl u hu hlab (by simp))
      | cons cur rest =>
          rw [bfs_loop_succ_cons]
          have hcur := hq cur (List.mem_cons_self cur rest)
          have hcolsR : ∀ nb ∈ colRows m cur, nb ∈ reach m start :=
            fun nb hnb => colRows_closed hv hrc hstart hcur.1 hnb
          have hcolslen : ∀ nb ∈ colRows m cur, nb < labels.length := by
            intro nb hnb
            have hR := hcolsR nb hnb
            have h2 := Finset.mem_range.mp (reach_subset_range hv hsq hstart hR)
            omega
          have hlen2 : (((colRows m cur).foldl (bfsScan id) (labels, rest)).1).length
              = m.ncols := by
            rw [scan_length]
            exact hlen
          have hmeas2 : (((colRows m cur).foldl (bfsScan id) (labels, rest)).2).length
              + (((colRows m cur).foldl (bfsScan id) (labels, rest)).1).count none
              ≤ f := by
            rw [scan_measure]
            simp only [List.length_cons] at hmeas
            omega
          have hsl2 := scan_mono id (colRows m cur) labels rest start hsl
          have hq2 : ∀ q ∈ ((colRows m cur).foldl (bfsScan id) (labels, rest)).2,
              q ∈ reach m start ∧
                labeledAt (((colRows m cur).foldl (bfsScan id) (labels, rest)).1) q := by
            intro q hq3
            constructor
            · rcases scan_queue_sub id (colRows m cur) labels rest q hq3 with h2 | h2
              · exact (hq q (List.mem_cons_of_mem cur h2)).1
              · exact hcolsR q h2
            · exact scan_queue_labeled id (colRows m cur) labels rest
                (fun q2 hq4 => (hq q2 (List.mem_cons_of_mem cur hq4)).2) q hq3
          have hcl2 : ∀ u, u ∈ reach m start →
              labeledAt (((colRows m cur).foldl (bfsScan id) (labels, rest)).1) u →
              ¬ u ∈ ((colRows m cur).foldl (bfsScan id) (labels, rest)).2 →
              ∀ nb ∈ colRows m u,
                labeledAt (((colRows m cur).foldl (bfsScan id) (labels, rest)).1) nb := by
            intro u huR hulab hunq nb hnb
            by_cases hold : labeledAt labels u
            · by_cases hucur : u = cur
              · rw [hucur] at hnb
                exact scan_cols_labeled id (colRows m cur) labels rest nb hnb
                  (hcolslen nb hnb)
              · have hur : ¬ u ∈ rest := fun hr =>
                  hunq (scan_queue_mono id (colRows m cur) labels rest u hr)
                have hunq0 : ¬ u ∈ cur :: rest := by
                  intro hmem
                  rcases List.mem_cons.mp hmem with he | he
                  · exact hucur he
                  · exact hur he
                exact scan_mono id (colRows m cur) labels rest nb
                  (hcl u huR hold hunq0 nb hnb)
            · exact absurd (scan_enqueued id (colRows m cur) labels rest u hold hulab) hunq
          rcases ih _ _ hlen2 hmeas2 hsl2 hq2 hcl2 with ⟨cA, cB, cC, cD⟩
          refine ⟨cA, cB, ?_, ?_⟩
          · intro w hw
            rw [cC w hw]
            refine scan_outside id (colRows m cur) labels rest w ?_
            intro hmem
            exact hw (hcolsR w hmem)
          · intro w hlabw
            rcases cD w hlabw with h2 | h2
            · rcases scan_new_sub id (colRows m cur) labels rest w h2 with h3 | h3
              · exact Or.inl h3
              · exact Or.inr (hcolsR w h3)
            · exact Or.inr h2


theorem bfs_component_spec {m : CSCBinaryMatrix} (hv : ValidCSC m)
    (hsym : SymmPattern m) {start : Nat} (hstart : start < m.nrows) (id : Nat)
    (labels : List (Option Nat)) (hlen : labels.length = m.ncols)
    (hunlab : ∀ w ∈ reach m start, ¬ labeledAt labels w) :
    (bfs_component m start id labels).length = m.ncols ∧
    (∀ w ∈ reach m start, labeledAt (bfs_component m start id labels) w) ∧
    (∀ w, ¬ w ∈ reach m start →
      (bfs_component m start id labels).getD w (some 0) = labels.getD w (some 0)) ∧
    (∀ w, labeledAt (bfs_component m start id labels) w →
      labeledAt labels w ∨ w ∈ reach m start) := by
  have hrc : m.nrows = m.ncols := hsym.1
  have hstartc : start < labels.length := by omega
  have hsnone : labels.getD start (some 0) = none := by
    have h1 := hunlab start (mem_self_reach m start)
    unfold labeledAt at h1
    by_contra hno
    exact h1 hno
  have hslab : labeledAt (labels.set start (some id)) start := by
    unfold labeledAt
    rw [oget_set_self _ _ hstartc]
    simp
  have hcount := count_none_set hsnone id
  have hcle := count_none_le_length labels
  have hmeas : [start].length + (labels.set start (some id)).count none ≤ m.ncols := by
    simp only [List.length_cons, List.length_nil]
    omega
  have hlen1 : (labels.set start (some id)).length = m.ncols := by
    rw [List.length_set]
    exact hlen
  have hq : ∀ q ∈ [start], q ∈ reach m start ∧ labeledAt (labels.set start (some id)) q := by
    intro q hq2
    have hqs : q = start := by simpa using hq2
    subst hqs
    exact ⟨mem_self_reach m q, hslab⟩
  have hcl : ∀ u, u ∈ reach m start → labeledAt (labels.set start (some id)) u →
      ¬ u ∈ [start] → ∀ nb ∈ colRows m u, labeledAt (labels.set start (some id)) nb := by
    intro u huR hulab hunq nb hnb
    exfalso
    have hus : u ≠ start := by
      intro he
      exact hunq (he ▸ List.mem_singleton.mpr rfl)
    have : labeledAt labels u := by
      unfold labeledAt at hulab ⊢
      rwa [oget_set_ne _ _ (fun he => hus he.symm)] at hulab
    exact hunlab u huR this
  unfold bfs_component
  rcases bfs_loop_spec hv hsym hstart id m.ncols (labels.set start (some id)) [start]
    hlen1 hmeas hslab hq hcl with ⟨cA, cB, cC, cD⟩
  refine ⟨cA, cB, ?_, ?_⟩
  · intro w hw
    rw [cC w hw]
    have hws : start ≠ w := by
      intro he
      exact hw (he ▸ mem_self_reach m start)
    exact oget_set_ne _ _ hws
  · intro w hlabw
    rcases cD w hlabw with h2 | h2
    · by_cases hws : start = w
      · exact Or.inr (hws ▸ mem_self_reach m start)
      · left
        unfold labeledAt at h2 ⊢
        rwa [oget_set_ne _ _ hws] at h2
    · exact Or.inr h2

theorem oget_replicate_none {B q : Nat} (h : q < B) :
    (List.replicate B (none : Option Nat)).getD q (some 0) = none := by
  induction B generalizing q with
  | zero => omega
  | succ b ih =>
      cases q with
      | zero => rfl
      | succ j => exact ih (by omega)

theorem ccc_fold_spec {m : CSCBinaryMatrix} (hv : ValidCSC m) (hsym : SymmPattern m) :
    ∀ (k : Nat), k ≤ m.ncols →
      (((List.range k).foldl (cccStep m) (List.replicate m.ncols none, 0)).1).length
        = m.ncols ∧
      (∀ w, w < m.nrows →
        (labeledAt ((List.range k).foldl (cccStep m) (List.replicate m.ncols none, 0)).1 w
          ↔ ∃ u, u < k ∧ w ∈ reach m u)) ∧
      ((List.range k).foldl (cccStep m) (List.replicate m.ncols none, 0)).2
        = ((Finset.range k).filter (fun v => compMin m v = v)).card := by
  have hrc : m.nrows = m.ncols := hsym.1
  have hsq : m.ncols ≤ m.nrows := le_of_eq hrc.symm
  intro k
  induction k with
  | zero =>
      intro _
      refine ⟨List.length_replicate _ _, ?_, by simp⟩
      intro w hw
      constructor
      · intro hlab
        exfalso
        unfold labeledAt at hlab
        have hlab2 : (List.replicate m.ncols (none : Option Nat)).getD w (some 0) ≠ none := hlab
        rw [oget_replicate_none (show w < m.ncols by omega)] at hlab2
        exact hlab2 rfl
      · rintro ⟨u, hu, _⟩
        omega
  | succ k ih =>
      intro hk1
      rcases ih (by omega) with ⟨iA, iB, iC⟩
      rw [List.range_succ, List.foldl_append, List.foldl_cons, List.foldl_nil]
      have hkr : k < m.nrows := by omega
      by_cases hlab : labeledAt ((List.range k).foldl (cccStep m) (List.replicate m.ncols none, 0)).1 k
      · -- k already labelled: step is a no-op
        have hstep : cccStep m ((List.range k).foldl (cccStep m) (List.replicate m.ncols none, 0)) k
            = ((List.range k).foldl (cccStep m) (List.replicate m.ncols none, 0)) := by
          unfold labeledAt at hlab
          exact if_neg hlab
        rw [hstep]
        rcases (iB k hkr).mp hlab with ⟨u0, hu0, hku0⟩
        have hu0n : u0 < m.nrows := by omega
        have hconn0 : Connected m u0 k := reach_sound hku0
        refine ⟨iA, ?_, ?_⟩
        · intro w hw
          rw [iB w hw]
          constructor
          · rintro ⟨u, hu, hwu⟩
            exact ⟨u, by omega, hwu⟩
          · rintro ⟨u, hu, hwu⟩
            rcases Nat.lt_or_ge u k with hul | hul
            · exact ⟨u, hul, hwu⟩
            · have huk : u = k := by omega
              subst huk
              refine ⟨u0, hu0, ?_⟩
              rw [reach_congr hv hsq hu0n hkr hconn0]
              exact hwu
        · rw [iC, Finset.range_succ, Finset.filter_insert, if_neg]
          have hck : compMin m k = compMin m u0 :=
            compMin_congr hv hsq hkr hu0n (connected_symm hconn0)
          have hle : compMin m u0 ≤ u0 := compMin_le_self m u0
          omega
      · -- k unlabelled: BFS labels its component, count increments
        have hgd : ((List.range k).foldl (cccStep m) (List.replicate m.ncols none, 0)).1.getD k (some 0) = none := by
          unfold labeledAt at hlab
          by_contra hno
          exact hlab hno
        have hstep : cccStep m ((List.range k).foldl (cccStep m) (List.replicate m.ncols none, 0)) k
            = (bfs_component m k ((List.range k).foldl (cccStep m) (List.replicate m.ncols none, 0)).2
                ((List.range k).foldl (cccStep m) (List.replicate m.ncols none, 0)).1,
               ((List.range k).foldl (cccStep m) (List.replicate m.ncols none, 0)).2 + 1) := by
          exact if_pos hgd
        rw [hstep]
        have hunlab : ∀ w ∈ reach m k,
            ¬ labeledAt ((List.range k).foldl (cccStep m) (List.replicate m.ncols none, 0)).1 w := by
          intro w hw hlabw
          have hwn : w < m.nrows :=
            Finset.mem_range.mp (reach_subset_range hv hsq hkr hw)
          rcases (iB w hwn).mp hlabw with ⟨u, hu, hwu⟩
          have hun : u < m.nrows := by omega
          have hconn : Connected m u k :=
            connected_trans (reach_sound hwu) (connected_symm (reach_sound hw))
          have : k ∈ reach m u := reach_complete hv hsq hun hconn
          exact hlab ((iB k hkr).mpr ⟨u, hu, this⟩)
        rcases bfs_component_spec hv hsym hkr
          ((List.range k).foldl (cccStep m) (List.replicate m.ncols none, 0)).2
          ((List.range k).foldl (cccStep m) (List.replicate m.ncols none, 0)).1
          iA hunlab with ⟨cA, cB, cC, cD⟩
        refine ⟨cA, ?_, ?_⟩
        · intro w hw
          constructor
          · intro hlabw
            rcases cD w hlabw with h2 | h2
            · rcases (iB w hw).mp h2 with ⟨u, hu, hwu⟩
              exact ⟨u, by omega, hwu⟩
            · exact ⟨k, by omega, h2⟩
          · rintro ⟨u, hu, hwu⟩
            rcases Nat.lt_or_ge u k with hul | hul
            · -- labelled before; outside or inside reach m k it stays labelled
              have hold : labeledAt ((List.range k).foldl (cccStep m) (List.replicate m.ncols none, 0)).1 w :=
                (iB w hw).mpr ⟨u, hul, hwu⟩
              by_cases hwk : w ∈ reach m k
              · exact cB w hwk
              · unfold labeledAt at hold ⊢
                rwa [cC w hwk]
            · have huk : u = k := by omega
              subst huk
              exact cB w hwu
        · have hfix : compMin m k = k := by
            have h1 : compMin m k ≤ k := compMin_le_self m k
            rcases Nat.lt_or_ge (compMin m k) k with hlt | hge
            · exfalso
              have hcm : compMin m k < m.nrows := by omega
              have hconn : Connected m (compMin m k) k :=
                connected_symm (compMin_connected m k)
              have hkm : k ∈ reach m (compMin m k) :=
                reach_complete hv hsq hcm hconn
              exact hlab ((iB k hkr).mpr ⟨compMin m k, hlt, hkm⟩)
            · omega
          rw [iC, Finset.range_succ, Finset.filter_insert, if_pos hfix,
            Finset.card_insert_of_not_mem (by simp)]

theorem count_connected_components_eq {m : CSCBinaryMatrix} (hv : ValidCSC m)
    (hsym : SymmPattern m) :
    count_connected_components m = componentCount m := by
  have h := (ccc_fold_spec hv hsym m.ncols (le_refl _)).2.2
  unfold count_connected_components componentCount
  rw [h, hsym.1]

/-! ## Bridging lemmas for the claims -/

theorem lp_edge_pth_eq (lab : List Nat) (c r : Nat) :
    lp_edge_pth lab c r = lp_edge lab c r := by
  unfold lp_edge_pth lp_edge
  have h1 := Nat.min_le_left (lget lab c) (lget lab r)
  have h2 := Nat.min_le_right (lget lab c) (lget lab r)
  by_cases h : lget lab c ≠ lget lab r
  · rw [if_pos h, if_pos h]
    by_cases hc : lget lab c ≠ min (lget lab c) (lget lab r)
    · rw [if_pos (show lget lab c > min (lget lab c) (lget lab r) by omega), if_pos hc]
    · rw [if_neg (show ¬ lget lab c > min (lget lab c) (lget lab r) by omega),
        if_pos (show lget lab r > min (lget lab c) (lget lab r) by omega), if_neg hc]
  · rw [if_neg h, if_neg h]

theorem lp_loop_le :
    ∀ (fuel : Nat) (m : CSCBinaryMatrix) (lab : List Nat) (i : Nat),
      lget (lp_loop fuel m lab) i ≤ lget lab i := by
  intro fuel
  induction fuel with
  | zero => intro m lab i; exact le_refl _
  | succ f ih =>
      intro m lab i
      rw [lp_loop_succ]
      by_cases h : (lp_pass m lab).2
      · rw [if_pos h]
        exact le_trans (ih m _ i) (lp_fold_le (allEdges m) lab false i)
      · rw [if_neg h]
        exact lp_fold_le (allEdges m) lab false i

/-! ## The claims -/

/-- C1: on every structurally valid CSC input with a symmetric pattern,
the propagation engine and the union-find engine both return the number
of connected components of the stored undirected graph, the sequential
BFS reference `count_connected_components` computes the same number,
and the two variants agree with each other (also through the
`cc_openmp` dispatch). -/
theorem claim_C1_cross_variant_agreement {m : CSCBinaryMatrix}
    (hv : ValidCSC m) (hsym : SymmPattern m) :
    cc_label_propagation m true true = (componentCount m : Int) ∧
    cc_union_find m true = (componentCount m : Int) ∧
    (count_connected_components m : Int) = (componentCount m : Int) ∧
    cc_union_find m true = cc_label_propagation m true true ∧
    (∀ nt, cc_openmp m nt 0 = cc_openmp m nt 1) := by
  have hsq : m.ncols ≤ m.nrows := le_of_eq hsym.1.symm
  have h1 := cc_label_propagation_count hv hsq
  have h2 := cc_union_find_count hv hsq
  have h3 := count_connected_components_eq hv hsym
  refine ⟨h1, h2, by rw [h3], by rw [h1, h2], fun nt => ?_⟩
  show cc_label_propagation m true true = cc_union_find m true
  rw [h1, h2]

/-- Witness for C1 at the two-disjoint-edges input `mxPairs`. -/
theorem claim_C1_witness :
    cc_label_propagation mxPairs true true = (componentCount mxPairs : Int) ∧
    cc_union_find mxPairs true = (componentCount mxPairs : Int) ∧
    (count_connected_components mxPairs : Int) = (componentCount mxPairs : Int) ∧
    cc_union_find mxPairs true = cc_label_propagation mxPairs true true ∧
    (∀ nt, cc_openmp mxPairs nt 0 = cc_openmp mxPairs nt 1) :=
  claim_C1_cross_variant_agreement (by decide) (by decide)

/-- C2: the claim that after the flatten phase `label[label[v]] ==
label[v]` holds for every `v` is false of the code: `find_compress`
never writes (its compression loop always breaks on the first
iteration), so the flatten phase changes nothing and a parent chain of
length two survives it.  On the valid symmetric input `mxChain` the
union phase produces the chain 4 ↦ 2 ↦ 0, and after flatten
`label[4] = 2` while `label[label[4]] = 0`. -/
theorem claim_C2_flatten_leaves_nonroots :
    ValidCSC mxChain ∧ SymmPattern mxChain ∧ 4 < mxChain.nrows ∧
    lget (uf_labels mxChain) 4 = 2 ∧
    lget (uf_labels mxChain) (lget (uf_labels mxChain) 4) ≠
      lget (uf_labels mxChain) 4 := by decide

/-- C3: the claim that every substrate skips stored edges with
`row_idx[j] >= nrows` is false for the pthreads union phase, whose
worker has no row filter: on the 1×2 input `mxRect`, whose single
stored entry has row index 1 ≥ nrows = 1, the pthreads union phase
invokes `union_rem` on that edge while the OpenMP / Cilk phases skip
it. -/
theorem claim_C3_pthreads_missing_row_filter :
    mxRect.nrows = 1 ∧ (1, 1) ∈ allEdges mxRect ∧
    ¬ (1 : Nat) < mxRect.nrows ∧
    (1, 1) ∈ uf_pthreads_unioned mxRect ∧
    (1, 1) ∉ uf_omp_unioned mxRect := by decide

/-- C4 (amended): on an input with `nrows == 0` the union-find engine
and the Cilk propagation engine return 0 for every allocation outcome,
but the OpenMP / pthreads propagation engine has no early return: it
returns 0 only when its allocations succeed, and reports -1 when the
label or bitmap allocation fails. -/
theorem claim_C4_empty_input {m : CSCBinaryMatrix} (h0 : m.nrows = 0) :
    (∀ lok, cc_union_find m lok = 0) ∧
    (∀ lok bok, cc_label_propagation_cilk m lok bok = 0) ∧
    cc_label_propagation m true true = 0 ∧
    (∀ bok, cc_label_propagation m false bok = -1) ∧
    cc_label_propagation m true false = -1 := by
  refine ⟨?_, ?_, ?_, ?_, ?_⟩
  · intro lok
    unfold cc_union_find
    rw [if_pos h0]
  · intro lok bok
    unfold cc_label_propagation_cilk
    rw [if_pos h0]
  · show ((lpCount m.nrows (lp_labels m) : Nat) : Int) = 0
    rw [h0]
    rfl
  · intro bok
    rfl
  · rfl

/-- Witness for C4 at the empty input `mxEmpty`. -/
theorem claim_C4_witness :
    (∀ lok, cc_union_find mxEmpty lok = 0) ∧
    (∀ lok bok, cc_label_propagation_cilk mxEmpty lok bok = 0) ∧
    cc_label_propagation mxEmpty true true = 0 ∧
    (∀ bok, cc_label_propagation mxEmpty false bok = -1) ∧
    cc_label_propagation mxEmpty true false = -1 :=
  claim_C4_empty_input rfl

/-- Counterexample to C4 as stated: on the empty input the OpenMP /
pthreads propagation engine reports an allocation failure (-1) when
the label `malloc` fails, instead of returning 0 immediately. -/
theorem claim_C4_counterexample :
    mxEmpty.nrows = 0 ∧ cc_label_propagation mxEmpty false true = -1 :=
  ⟨rfl, rfl⟩

/-- C5: in the propagation variant the labels start as the identity,
every store writes a value strictly smaller than what the slot held
(the pthreads update step performs the same update as the OpenMP one),
labels never increase across the convergence loop, and on exit every
in-range label satisfies `label[v] ≤ v < nrows`. -/
theorem claim_C5_label_monotonicity (m : CSCBinaryMatrix) :
    (∀ v, v < m.nrows → lget (List.range m.nrows) v = v) ∧
    (∀ lab c r i, lget (lp_edge lab c r).1 i ≠ lget lab i →
      lget (lp_edge lab c r).1 i < lget lab i) ∧
    (∀ lab c r, lp_edge_pth lab c r = lp_edge lab c r) ∧
    (∀ fuel lab i, lget (lp_loop fuel m lab) i ≤ lget lab i) ∧
    (∀ v, v < m.nrows →
      lget (lp_labels m) v ≤ v ∧ lget (lp_labels m) v < m.nrows) := by
  refine ⟨fun v hvn => lget_range hvn,
    fun lab c r i h => lp_edge_strict lab c r i h,
    fun lab c r => lp_edge_pth_eq lab c r,
    fun fuel lab i => lp_loop_le fuel m lab i, ?_⟩
  intro v hvn
  have hL := lp_labels_labelInv m
  have hlen := lp_labels_length m
  have h1 : lget (lp_labels m) v ≤ v := by
    rcases Nat.lt_or_ge v (lp_labels m).length with h | h
    · exact hL v h
    · rw [lget_oob _ h]
      omega
  exact ⟨h1, by omega⟩

/-- C6: when the propagation loop converges (a pass changes nothing),
every vertex's label is the minimum vertex id of its connected
component, and two in-range vertices carry the same label exactly when
they are connected. -/
theorem claim_C6_canonical_labels {m : CSCBinaryMatrix}
    (hv : ValidCSC m) (hsym : SymmPattern m) :
    (lp_pass m (lp_labels m)).2 = false ∧
    (∀ v, v < m.nrows → lget (lp_labels m) v = compMin m v) ∧
    (∀ u v, u < m.nrows → v < m.nrows →
      (lget (lp_labels m) u = lget (lp_labels m) v ↔ Connected m u v)) := by
  have hsq : m.ncols ≤ m.nrows := le_of_eq hsym.1.symm
  exact ⟨lp_labels_converged m,
    fun v hvn => lp_labels_eq_compMin hv hsq hvn,
    fun u v hu hv2 => lp_labels_eq_iff_connected hv hsq hu hv2⟩

/-- Witness for C6 at the triangle input `mxTri`. -/
theorem claim_C6_witness :
    (lp_pass mxTri (lp_labels mxTri)).2 = false ∧
    (∀ v, v < mxTri.nrows → lget (lp_labels mxTri) v = compMin mxTri v) ∧
    (∀ u v, u < mxTri.nrows → v < mxTri.nrows →
      (lget (lp_labels mxTri) u = lget (lp_labels mxTri) v ↔
        Connected mxTri u v)) :=
  claim_C6_canonical_labels (by decide) (by decide)

/-- C7: the union-find invariant `label[v] ≤ v` holds of the identity
initialisation and is preserved by `union_rem` and `find_compress`;
`union_rem` links the larger of the two roots under the smaller, so
every write it makes stores a value strictly below its index. -/
theorem claim_C7_uf_label_invariant :
    (∀ n, LabelInv (ufInit n)) ∧
    (∀ lab a b, LabelInv lab → LabelInv (union_rem lab a b)) ∧
    (∀ lab x, LabelInv lab → LabelInv (find_compress lab x).2) ∧
    (∀ lab a b, LabelInv lab → union_rem lab a b =
      if rootOf lab a = rootOf lab b then lab
      else lset lab (max (rootOf lab a) (rootOf lab b))
        (min (rootOf lab a) (rootOf lab b))) ∧
    (∀ lab a b i, LabelInv lab →
      lget (union_rem lab a b) i ≠ lget lab i →
      lget (union_rem lab a b) i < i) := by
  refine ⟨fun n => labelInv_range n,
    fun lab a b hL => union_rem_labelInv hL a b, fun lab x hL => ?_,
    fun lab a b hL => union_rem_eq hL a b,
    fun lab a b i hL h => union_rem_strict hL a b i h⟩
  rw [find_compress_snd]
  exact hL

/-- C8: tracked through the allocation ledger, both engines return -1
leaving nothing allocated when the label allocation fails; the
propagation engine frees the label array before returning -1 when the
bitmap allocation fails; and every successful return leaves no
allocation held. -/
theorem claim_C8_allocation_discipline (m : CSCBinaryMatrix) :
    (∀ bok, cc_label_propagation_mem m false bok = (-1, [])) ∧
    cc_label_propagation_mem m true false = (-1, []) ∧
    cc_label_propagation_mem m true true =
      ((lpCount m.nrows (lp_labels m) : Int), []) ∧
    cc_union_find_mem m false =
      (if m.nrows = 0 then ((0 : Int), ([] : List AllocTok)) else (-1, [])) ∧
    (cc_union_find_mem m true).2 = [] := by
  refine ⟨fun bok => rfl, rfl, rfl, ?_, ?_⟩
  · by_cases h0 : m.nrows = 0
    · rw [if_pos h0]
      unfold cc_union_find_mem
      rw [if_pos h0]
    · rw [if_neg h0]
      unfold cc_union_find_mem
      rw [if_neg h0]
      rfl
  · by_cases h0 : m.nrows = 0
    · unfold cc_union_find_mem
      rw [if_pos h0]
    · unfold cc_union_find_mem
      rw [if_neg h0]
      rfl

/-- C9: `find_compress(label, x)` returns the root reached from `x` by
following parent pointers and leaves the label array completely
unchanged; under the `label[v] ≤ v` invariant the returned value is a
fixed point of the array. -/
theorem claim_C9_find_compress_is_pure_find :
    (∀ lab x, find_compress lab x = (rootOf lab x, lab)) ∧
    (∀ lab x, LabelInv lab → lget lab (rootOf lab x) = rootOf lab x) := by
  refine ⟨fun lab x => ?_, fun lab x hL => rootOf_fix hL x⟩
  have h1 := find_compress_fst lab x
  have h2 := find_compress_snd lab x
  exact Prod.ext_iff.mpr ⟨h1, h2⟩

/-- C10: `benchmark_cc` tests the result stored from the previous
trial: with a single trial returning -1 it exits 0 and prints -1; the
first trial's value is recorded unchecked, and a stored -1 is only
detected when a further trial follows. -/
theorem claim_C10_benchmark_checks_previous_trial :
    benchmark_cc true [(-1 : Int)] = (0, some (-1)) ∧
    (∀ (t : Int) (ts : List Int), benchmark_cc true (t :: ts) = benchGo 1 t ts) ∧
    (∀ (t : Int) (ts : List Int), benchGo 1 (-1) (t :: ts) = (1, none)) := by
  refine ⟨by decide, fun t ts => ?_, fun t ts => ?_⟩
  · show benchGo 0 0 (t :: ts) = benchGo 1 t ts
    simp only [benchGo]
    norm_num
  · simp only [benchGo]
    norm_num

end PDS
